import Mathlib

/-!
Verification of the nested-set codec (NestedSetCodec.java) against its
natural-language specification.

The embedding models:
  * the protobuf-style byte primitives used by the codec
    (CodedOutputStream.writeInt32NoTag / writeByteArrayNoTag / writeBoolNoTag,
    CodedInputStream.readInt32 / readBytes / readBool);
  * nested-set children graphs: Object[] children nodes are graph indices whose
    entries are either payloads or references to other Object[] nodes, the
    EMPTY_CHILDREN sentinel and single-payload (leaf) children are separate
    heap-object forms;
  * the serializer (topological sort by depth-first search, per-call
    identity-keyed digest table, framed output) and the deserializer
    (per-frame parsing, the process-wide digestToChild interner as explicit
    threaded state, a heap of allocated Object[] values so that object
    identity is observable).

Streams are lists of byte tokens (Nat).  The MD5 engine is a parameter
hh : List Nat → List Nat of the definitions; theorems that need
collision-freedom state it as an injectivity hypothesis (the spec treats
collisions as negligible).  The payload codec seam is a parameter pair
(penc, pdec).  Recursion that is unbounded in Java (the DFS) is modelled
with explicit fuel; returning none models non-termination at every bound.
-/

namespace NSC

/-! ## Byte-stream primitives -/

/-- CodedOutputStream.writeInt32NoTag for non-negative values: little-endian
base-128 varint.  Structural fuel (the first argument) is consumed once per
output byte; fuel n always suffices for value n. -/
def writeVarNatAux : Nat → Nat → List Nat
  | 0, n => [n % 128]
  | f+1, n => if n < 128 then [n] else (n % 128 + 128) :: writeVarNatAux f (n / 128)

def writeVarNat (n : Nat) : List Nat := writeVarNatAux n n

/-- CodedOutputStream.writeBoolNoTag: a single 0 or 1 byte. -/
def writeBool (b : Bool) : List Nat := [if b then 1 else 0]

/-- CodedOutputStream.writeByteArrayNoTag: varint length prefix then the raw bytes. -/
def writeByteArray (bs : List Nat) : List Nat := writeVarNat bs.length ++ bs

/-- Varint reader loop: at most 10 bytes (as in CodedInputStream), each byte
contributes its low 7 bits; a byte below 128 terminates. -/
def readVarintLoop : Nat → Nat → Nat → List Nat → Option (Nat × List Nat)
  | 0, _, _, _ => none
  | _+1, _, _, [] => none
  | f+1, acc, shift, b :: rest =>
    if b < 128 then some (acc + b * 2 ^ shift, rest)
    else readVarintLoop f (acc + b % 128 * 2 ^ shift) (shift + 7) rest

def readRawVarint (s : List Nat) : Option (Nat × List Nat) := readVarintLoop 10 0 0 s

/-- Truncation of a raw varint value to a signed 32-bit Java int. -/
def decodeInt32 (n : Nat) : Int :=
  if n % 2 ^ 32 < 2 ^ 31 then ((n % 2 ^ 32 : Nat) : Int)
  else ((n % 2 ^ 32 : Nat) : Int) - 2 ^ 32

/-- CodedInputStream.readInt32. -/
def readInt32 (s : List Nat) : Option (Int × List Nat) :=
  (readRawVarint s).map (fun x => (decodeInt32 x.1, x.2))

/-- CodedInputStream.readBool: a varint, nonzero means true. -/
def readBool (s : List Nat) : Option (Bool × List Nat) :=
  (readRawVarint s).map (fun x => (decide (x.1 ≠ 0), x.2))

/-- CodedInputStream.readBytes: signed length prefix; negative or truncated
lengths are malformed. -/
def readBytes (s : List Nat) : Option (List Nat × List Nat) :=
  match readInt32 s with
  | none => none
  | some (len, rest) =>
    if len < 0 then none
    else if rest.length < len.toNat then none
    else some (rest.take len.toNat, rest.drop len.toNat)

/-! ## Data model

An Object[] children node of the in-memory DAG is modelled as an index into a
graph: node i is a list of entries, each either a payload or a reference to
another node.  A children Object (as passed to dfs / serializeOneNestedSet) is
EMPTY_CHILDREN, a single payload, or a node index; node-index equality models
Java object identity of the arrays. -/

inductive Entry where
  | payload (p : Nat)
  | ref (id : Nat)
deriving DecidableEq, Repr

abbrev Graph := List (List Entry)

inductive HeapObj where
  | empty
  | payload (p : Nat)
  | node (id : Nat)
deriving DecidableEq, Repr

/-- Modelled from the spec: Order.java is not under src/.  The spec describes a
small closed enumeration of traversal orderings (STABLE, COMPILE, LINK,
NAIVE-LINK) whose wire encoding is the ordinal in declaration order. -/
inductive Order where
  | stable
  | compile
  | link
  | naiveLink
deriving DecidableEq, Repr

def Order.ordinal : Order → Nat
  | .stable => 0
  | .compile => 1
  | .link => 2
  | .naiveLink => 3

def Order.ofOrdinal : Nat → Option Order
  | 0 => some .stable
  | 1 => some .compile
  | 2 => some .link
  | 3 => some .naiveLink
  | _ => none

/-- Modelled from the spec: a nested set is the pair (order-kind, children). -/
structure NestedSet where
  order : Order
  children : HeapObj
deriving DecidableEq, Repr

def refsOf (es : List Entry) : List Nat :=
  es.filterMap (fun e => match e with | .ref j => some j | .payload _ => none)

def nodeEntries (g : Graph) (i : Nat) : List Entry := g.getD i []

/-- The references among nodes point strictly downward; any finite DAG can be
presented this way by topologically numbering its nodes. -/
def Acyclic (g : Graph) : Prop :=
  ∀ i, i < g.length → ∀ j ∈ refsOf (nodeEntries g i), j < i

def WfRoot (g : Graph) : HeapObj → Prop
  | .node r => r < g.length
  | _ => True

/-- Transitive reachability along node references. -/
inductive Reaches (g : Graph) : Nat → Nat → Prop
  | refl (i : Nat) : Reaches g i i
  | step {i j k : Nat} : j ∈ refsOf (nodeEntries g i) → Reaches g j k → Reaches g i k

/-! ## Topological sort (NestedSetCodec.dfs) -/

/-- NestedSetCodec.dfs: postorder depth-first traversal; the visited set is a
LinkedHashSet kept in insertion order.  The Java recursion is unbounded, so it
is indexed by fuel (recursion depth); none models exceeding every depth. -/
def dfsFuel (g : Graph) : Nat → List HeapObj → HeapObj → Option (List HeapObj)
  | 0, _, _ => none
  | fuel+1, sets, c =>
    if c ∈ sets then some sets
    else
      match c with
      | .node id =>
        match (refsOf (nodeEntries g id)).foldlM
            (fun s j => dfsFuel g fuel s (HeapObj.node j)) sets with
        | none => none
        | some s2 => some (if c ∈ s2 then s2 else s2 ++ [c])
      | _ => some (sets ++ [c])

def getTopologicallySortedChildren (g : Graph) (fuel : Nat) (c : HeapObj) :
    Option (List HeapObj) :=
  dfsFuel g fuel [] c

/-! ## Serialization -/

inductive Err where
  | malformed
  | missingReference
  | orderingViolation
  | invalidCount
  | invalidOrder
  | payloadError
deriving DecidableEq, Repr

/-- SerializationConstants.shouldSerializeNestedSet: the process-level testing
toggle, enabled in production. -/
def shouldSerializeNestedSet : Bool := true

def alookup {α β : Type} [DecidableEq α] (k : α) : List (α × β) → Option β
  | [] => none
  | (k2, v) :: l => if k2 = k then some v else alookup k l

/-- Entry loop of serializeMultiItemChildArray: payloads inline after a false
bool, node references as their recorded digest after a true bool; a missing
digest is the checkNotNull failure (ORDERING-VIOLATION). -/
def serializeEntries (penc : Nat → List Nat) (m : List (HeapObj × List Nat)) :
    List Entry → Except Err (List Nat)
  | [] => .ok []
  | .payload p :: es =>
    match serializeEntries penc m es with
    | .error e => .error e
    | .ok rest => .ok (writeBool false ++ penc p ++ rest)
  | .ref j :: es =>
    match alookup (HeapObj.node j) m with
    | none => .error .orderingViolation
    | some d =>
      match serializeEntries penc m es with
      | .error e => .error e
      | .ok rest => .ok (writeBool true ++ writeByteArray d ++ rest)

/-- The body encoding of one children node (the bytes streamed through the
hashing stream in serializeOneNestedSet). -/
def serializeBody (penc : Nat → List Nat) (g : Graph)
    (m : List (HeapObj × List Nat)) : HeapObj → Except Err (List Nat)
  | .node id =>
    match serializeEntries penc m (nodeEntries g id) with
    | .error e => .error e
    | .ok ents => .ok (writeVarNat (nodeEntries g id).length ++ ents)
  | .payload p => .ok (writeVarNat 1 ++ penc p)
  | .empty => .ok (writeVarNat 0)

/-- serializeOneNestedSet: hash the body, emit digest and body length-prefixed,
record the digest in the per-call identity table. -/
def serializeOneNestedSet (hh : List Nat → List Nat) (penc : Nat → List Nat)
    (g : Graph) (c : HeapObj) (m : List (HeapObj × List Nat)) :
    Except Err (List Nat × List (HeapObj × List Nat)) :=
  match serializeBody penc g m c with
  | .error e => .error e
  | .ok body =>
    .ok (writeByteArray (hh body) ++ writeByteArray body, (c, hh body) :: m)

def serializeFrames (hh : List Nat → List Nat) (penc : Nat → List Nat)
    (g : Graph) : List HeapObj → List (HeapObj × List Nat) → Except Err (List Nat)
  | [], _ => .ok []
  | c :: cs, m =>
    match serializeOneNestedSet hh penc g c m with
    | .error e => .error e
    | .ok (bytes, m2) =>
      match serializeFrames hh penc g cs m2 with
      | .error e => .error e
      | .ok rest => .ok (bytes ++ rest)

/-- NestedSetCodec.serialize.  Returns none when the DFS exceeds every
recursion depth (Java: the call never returns normally). -/
def serialize (hh : List Nat → List Nat) (penc : Nat → List Nat) (fuel : Nat)
    (g : Graph) (ns : NestedSet) : Option (Except Err (List Nat)) :=
  if shouldSerializeNestedSet then
    match getTopologicallySortedChildren g fuel ns.children with
    | none => none
    | some topo =>
      some (match serializeFrames hh penc g topo [] with
        | .error e => .error e
        | .ok frames =>
          .ok (writeVarNat topo.length ++ writeVarNat ns.order.ordinal ++ frames))
  else some (.ok [])

/-! ## Deserialization

Deserialized Object[] arrays live on an explicit heap (allocation order), so
that Java object identity is observable as address equality.  digestToChild,
the process-wide interner, is threaded explicitly as part of DState; its
weak-value eviction is not modelled (all values stay live). -/

inductive DVal where
  | empty
  | payload (p : Nat)
  | arr (addr : Nat)
deriving DecidableEq, Repr

structure DState where
  heap : List (List DVal)
  interner : List (List Nat × DVal)
deriving DecidableEq, Repr

abbrev PDec := List Nat → Option (Nat × List Nat)

/-- Entry loop of deserializeMultipleItemChildArray: a true bool is followed by
a digest resolved against the digestToChild map (checkNotNull failure is the
MISSING-REFERENCE error), a false bool by a payload. -/
def readChildEntries (pdec : PDec) (interner : List (List Nat × DVal)) :
    Nat → List Nat → Except Err (List DVal × List Nat)
  | 0, s => .ok ([], s)
  | k+1, s =>
    match readBool s with
    | none => .error .malformed
    | some (true, s1) =>
      match readBytes s1 with
      | none => .error .malformed
      | some (d, s2) =>
        match alookup d interner with
        | none => .error .missingReference
        | some v =>
          match readChildEntries pdec interner k s2 with
          | .error e => .error e
          | .ok (vs, s3) => .ok (v :: vs, s3)
    | some (false, s1) =>
      match pdec s1 with
      | none => .error .payloadError
      | some (p, s2) =>
        match readChildEntries pdec interner k s2 with
        | .error e => .error e
        | .ok (vs, s3) => .ok (DVal.payload p :: vs, s3)

/-- The childCount dispatch of deserializeOneNestedSet: childCount > 1 becomes
an Object[] allocated at the next heap address, childCount == 1 a payload,
anything else (including negative counts) EMPTY_CHILDREN. -/
def buildChildValue (pdec : PDec) (st : DState) (childCount : Int)
    (bodyRest : List Nat) : Except Err (DVal × List (List DVal)) :=
  if childCount > 1 then
    match readChildEntries pdec st.interner childCount.toNat bodyRest with
    | .error e => .error e
    | .ok (vs, _) => .ok (DVal.arr st.heap.length, st.heap ++ [vs])
  else if childCount = 1 then
    match pdec bodyRest with
    | none => .error .payloadError
    | some (p, _) => .ok (DVal.payload p, st.heap)
  else .ok (DVal.empty, st.heap)

/-- digestToChild.putIfAbsent: adopt the existing value for this digest if one
is present, otherwise install the just-built result. -/
def internResult (st : DState) (digest : List Nat) (result : DVal)
    (heap2 : List (List DVal)) : DVal × DState :=
  match alookup digest st.interner with
  | some old => (old, ⟨heap2, st.interner⟩)
  | none => (result, ⟨heap2, (digest, result) :: st.interner⟩)

/-- deserializeOneNestedSet: read digest and body, rebuild the children value,
then digestToChild.putIfAbsent under the digest, adopting an existing value. -/
def deserializeOneNestedSet (pdec : PDec) (st : DState) (s : List Nat) :
    Except Err (DVal × DState × List Nat) :=
  match readBytes s with
  | none => .error .malformed
  | some (digest, s1) =>
    match readBytes s1 with
    | none => .error .malformed
    | some (body, s2) =>
      match readInt32 body with
      | none => .error .malformed
      | some (childCount, bodyRest) =>
        match buildChildValue pdec st childCount bodyRest with
        | .error e => .error e
        | .ok (result, heap2) =>
          .ok ((internResult st digest result heap2).1,
            (internResult st digest result heap2).2, s2)

/-- The frame loop of NestedSetCodec.deserialize; the last frame read is the
top-level children value. -/
def deserializeFrames (pdec : PDec) :
    Nat → DState → List Nat → DVal → Except Err (DVal × DState × List Nat)
  | 0, st, s, last => .ok (last, st, s)
  | n+1, st, s, _ =>
    match deserializeOneNestedSet pdec st s with
    | .error e => .error e
    | .ok (v, st2, s2) => deserializeFrames pdec n st2 s2 v

structure DNestedSet where
  order : Order
  children : DVal
deriving DecidableEq, Repr

/-- Modelled from the spec: Order.emptySet() yields the canonical empty nested
set of that order-kind (Order.java is not under src/). -/
def Order.emptySet (o : Order) : DNestedSet := ⟨o, DVal.empty⟩

def createNestedSet (o : Order) (children : DVal) : DNestedSet :=
  if children = DVal.empty then o.emptySet else ⟨o, children⟩

/-- Modelled from the spec: EnumCodec reads the ordinal (a varint) and rejects
values outside the enumeration (EnumCodec.java is not under src/). -/
def deserializeOrder (s : List Nat) : Except Err (Order × List Nat) :=
  match readInt32 s with
  | none => .error .malformed
  | some (n, rest) =>
    if n < 0 then .error .invalidOrder
    else
      match Order.ofOrdinal n.toNat with
      | none => .error .invalidOrder
      | some o => .ok (o, rest)

/-- NestedSetCodec.deserialize: count (checkState count >= 1), order, frames. -/
def deserialize (pdec : PDec) (st : DState) (s : List Nat) :
    Except Err (DNestedSet × DState × List Nat) :=
  if shouldSerializeNestedSet then
    match readInt32 s with
    | none => .error .malformed
    | some (nestedSetCount, s1) =>
      if nestedSetCount < 1 then .error .invalidCount
      else
        match deserializeOrder s1 with
        | .error e => .error e
        | .ok (order, s2) =>
          match deserializeFrames pdec nestedSetCount.toNat st s2 DVal.empty with
          | .error e => .error e
          | .ok (children, st2, s3) => .ok (createNestedSet order children, st2, s3)
  else .ok (Order.stable.emptySet, st, s)

/-! ## Closed-form body and digest of a node

Because of the topological write order, the digest recorded for a node is a
function of the graph alone; bodyOfN gives that byte form directly (refs are
encoded as the digest of the referenced node). -/

def entsBytesWith (penc : Nat → List Nat) (digestFn : Nat → List Nat) :
    List Entry → List Nat
  | [] => []
  | .payload p :: es => writeBool false ++ penc p ++ entsBytesWith penc digestFn es
  | .ref j :: es =>
    writeBool true ++ writeByteArray (digestFn j) ++ entsBytesWith penc digestFn es

def bodyOfFuel (g : Graph) (hh : List Nat → List Nat) (penc : Nat → List Nat) :
    Nat → Nat → List Nat
  | 0, _ => []
  | f+1, id =>
    writeVarNat (nodeEntries g id).length ++
      entsBytesWith penc (fun j => hh (bodyOfFuel g hh penc f j)) (nodeEntries g id)

def bodyOfN (g : Graph) (hh : List Nat → List Nat) (penc : Nat → List Nat)
    (id : Nat) : List Nat :=
  bodyOfFuel g hh penc (id + 1) id

def digestOfN (g : Graph) (hh : List Nat → List Nat) (penc : Nat → List Nat)
    (id : Nat) : List Nat :=
  hh (bodyOfN g hh penc id)

def bodyObj (g : Graph) (hh : List Nat → List Nat) (penc : Nat → List Nat) :
    HeapObj → List Nat
  | .empty => writeVarNat 0
  | .payload p => writeVarNat 1 ++ penc p
  | .node id => bodyOfN g hh penc id

def digestObj (g : Graph) (hh : List Nat → List Nat) (penc : Nat → List Nat)
    (c : HeapObj) : List Nat :=
  hh (bodyObj g hh penc c)

/-! ## Structural equality between a source children object and a deserialized
value (fuel-indexed so it is executable) -/

def entryEquiv (g : Graph) (heap : List (List DVal)) :
    Nat → Entry → DVal → Bool
  | 0, _, _ => false
  | _+1, .payload p, .payload q => p == q
  | f+1, .ref i, .arr a =>
    match g.get? i, heap.get? a with
    | some es, some ds =>
      (es.length == ds.length) &&
      ((es.zip ds).all (fun x => entryEquiv g heap f x.1 x.2))
    | _, _ => false
  | _+1, _, _ => false

def objEquiv (g : Graph) (heap : List (List DVal)) (f : Nat) :
    HeapObj → DVal → Bool
  | .empty, .empty => true
  | .payload p, .payload q => p == q
  | .node i, v => entryEquiv g heap f (.ref i) v
  | _, _ => false

/-! ## Predicates used by the dfs lemmas -/

/-- Which children objects a dfs call started at c may add to the visited set. -/
def ReachObj (g : Graph) : HeapObj → HeapObj → Prop
  | .node i, x => ∃ j, x = HeapObj.node j ∧ Reaches g i j
  | c, x => x = c

/-- The visited set is closed under references. -/
def ClosedSets (g : Graph) (l : List HeapObj) : Prop :=
  ∀ id, HeapObj.node id ∈ l → ∀ j ∈ refsOf (nodeEntries g id), HeapObj.node j ∈ l

/-- Every node occurs after all nodes it references. -/
def TopoOrdered (g : Graph) (l : List HeapObj) : Prop :=
  ∀ i, (hi : i < l.length) → ∀ id, l[i] = HeapObj.node id →
    ∀ j ∈ refsOf (nodeEntries g id),
      ∃ k, ∃ hk : k < l.length, k < i ∧ l[k] = HeapObj.node j

/-! ## Concrete instances used by witnesses -/

/-- An injective stand-in for the MD5 engine: encode the whole byte list into
a single token. -/
def natListEncode : List Nat → Nat
  | [] => 0
  | x :: xs => Nat.pair x (natListEncode xs) + 1

def hashPair (b : List Nat) : List Nat := [natListEncode b]

/-- Varint payload codec used to instantiate the payload seam in witnesses. -/
def pencV : Nat → List Nat := writeVarNat

def pdecV : PDec := readRawVarint

/-- One node that references itself: the smallest cyclic children graph. -/
def c4Graph : Graph := [[Entry.ref 0, Entry.payload 1]]

instance decEqExcept {ε α : Type} [DecidableEq ε] [DecidableEq α] :
    DecidableEq (Except ε α) := fun x y =>
  match x, y with
  | .error a, .error b =>
    if h : a = b then isTrue (by rw [h])
    else isFalse (by intro hc; cases hc; exact h rfl)
  | .ok a, .ok b =>
    if h : a = b then isTrue (by rw [h])
    else isFalse (by intro hc; cases hc; exact h rfl)
  | .error _, .ok _ => isFalse (by intro hc; cases hc)
  | .ok _, .error _ => isFalse (by intro hc; cases hc)

instance decAcyclic (g : Graph) : Decidable (Acyclic g) :=
  inferInstanceAs (Decidable (∀ i, i < g.length → ∀ j ∈ refsOf (nodeEntries g i), j < i))

instance decWfRoot (g : Graph) (c : HeapObj) : Decidable (WfRoot g c) :=
  match c with
  | .node r => inferInstanceAs (Decidable (r < g.length))
  | .empty => inferInstanceAs (Decidable True)
  | .payload _ => inferInstanceAs (Decidable True)

/-- A one-frame blob whose single BRANCH entry references digest [7], which no
frame of the blob itself produces; only a pre-populated digestToChild map can
resolve it. -/
def c5Blob : List Nat :=
  writeVarNat 1 ++ writeVarNat 0 ++ writeByteArray [99] ++
    writeByteArray (writeVarNat 2 ++ (writeBool true ++ writeByteArray [7]) ++
      (writeBool false ++ writeVarNat 5))

/-- One interner state refines another: every binding of the first is a
binding of the second (putIfAbsent never overwrites, so reads only grow the
shared map compatibly). -/
def InternerLe (st st2 : DState) : Prop :=
  ∀ d v, alookup d st.interner = some v → alookup d st2.interner = some v

/-! ## Further predicates and helpers for the round-trip development -/

/-- The concatenated frames the writer emits for a topological order. -/
def framesBytes (g : Graph) (hh : List Nat → List Nat) (penc : Nat → List Nat) :
    List HeapObj → List Nat
  | [] => []
  | c :: cs =>
    (writeByteArray (digestObj g hh penc c) ++ writeByteArray (bodyObj g hh penc c))
      ++ framesBytes g hh penc cs

/-- Frame parser: a sequence of digest and body byte arrays. -/
def parseFrames : Nat → List Nat → Option (List (List Nat × List Nat) × List Nat)
  | 0, s => some ([], s)
  | n+1, s =>
    match readBytes s with
    | none => none
    | some (d, s1) =>
      match readBytes s1 with
      | none => none
      | some (b, s2) =>
        match parseFrames n s2 with
        | none => none
        | some (fs, s3) => some ((d, b) :: fs, s3)

/-- The value the reader materializes for one entry of a BRANCH body, given
the shared digest map. -/
def entryRead (g : Graph) (hh : List Nat → List Nat) (penc : Nat → List Nat)
    (interner : List (List Nat × DVal)) : Entry → DVal
  | .payload p => DVal.payload p
  | .ref j => (alookup (digestOfN g hh penc j) interner).getD DVal.empty

def ObjEquivP (g : Graph) (heap : List (List DVal)) (c : HeapObj) (v : DVal) :
    Prop :=
  ∃ f, objEquiv g heap f c v = true

/-- The payloads a nested set with root children object root over graph g can
hand to the payload codec. -/
def PayloadIn (g : Graph) (root : HeapObj) (p : Nat) : Prop :=
  (∃ es ∈ g, Entry.payload p ∈ es) ∨ root = HeapObj.payload p

/-- Well-formed children graph: acyclic, with Java-representable sizes and the
BRANCH arity invariant (length at least 2). -/
def GoodGraph (g : Graph) : Prop :=
  g.length < 2 ^ 31 ∧ Acyclic g ∧
  ∀ i, i < g.length → 2 ≤ (nodeEntries g i).length ∧
    (nodeEntries g i).length < 2 ^ 31

instance decGoodGraph (g : Graph) : Decidable (GoodGraph g) :=
  inferInstanceAs (Decidable (g.length < 2 ^ 31 ∧ Acyclic g ∧
    ∀ i, i < g.length → 2 ≤ (nodeEntries g i).length ∧
      (nodeEntries g i).length < 2 ^ 31))

/-- Invariant tying the deserialized array of a processed node to the shared
digest map entry by entry (gives sharing fidelity). -/
def ArrInv (g : Graph) (hh : List Nat → List Nat) (penc : Nat → List Nat)
    (st : DState) (id : Nat) : Prop :=
  ∃ a ds, alookup (digestOfN g hh penc id) st.interner = some (DVal.arr a) ∧
    st.heap.get? a = some ds ∧ ds.length = (nodeEntries g id).length ∧
    ∀ k, (hk : k < (nodeEntries g id).length) →
      (∀ p, (nodeEntries g id).get ⟨k, hk⟩ = Entry.payload p →
        ds.get? k = some (DVal.payload p)) ∧
      (∀ j, (nodeEntries g id).get ⟨k, hk⟩ = Entry.ref j →
        ds.get? k = alookup (digestOfN g hh penc j) st.interner)

/-- Invariant of the reader's frame loop after the frames in done. -/
def ReaderInv (g : Graph) (hh : List Nat → List Nat) (penc : Nat → List Nat)
    (done : List HeapObj) (st : DState) : Prop :=
  (∀ c ∈ done, ∃ v, alookup (digestObj g hh penc c) st.interner = some v ∧
    ObjEquivP g st.heap c v) ∧
  (∀ d v, (d, v) ∈ st.interner → ∃ c, c ∈ done ∧ d = digestObj g hh penc c) ∧
  (∀ id, HeapObj.node id ∈ done → ArrInv g hh penc st id)

/-- Pointwise alignment of entries forced by equal body encodings. -/
def EntryAligned (g : Graph) (hh : List Nat → List Nat) (penc : Nat → List Nat)
    (e1 e2 : Entry) : Prop :=
  (∃ p, e1 = Entry.payload p ∧ e2 = Entry.payload p) ∨
  (∃ j1 j2, e1 = Entry.ref j1 ∧ e2 = Entry.ref j2 ∧
    digestOfN g hh penc j1 = digestOfN g hh penc j2)

/-- Witness graph: node 1 references node 0 twice and carries payload 30;
node 0 carries payloads 10 and 20. -/
def wG : Graph :=
  [[Entry.payload 10, Entry.payload 20],
   [Entry.ref 0, Entry.ref 0, Entry.payload 30]]

/-! ## Round-trip lemmas for the primitives -/

theorem writeVarNatAux_length_le {f n k : Nat} (hf : n ≤ f) (hk : n < 128 ^ (k + 1)) :
    (writeVarNatAux f n).length ≤ k + 1 := by
  induction f generalizing n k with
  | zero => simp [writeVarNatAux]
  | succ f ih =>
    by_cases h : n < 128
    · simp [writeVarNatAux, h]
    · have hdiv : n / 128 ≤ f := by
        have h1 : n / 128 < n := Nat.div_lt_self (by omega) (by norm_num)
        omega
      have hk1 : 1 ≤ k := by
        by_contra hc
        have : k = 0 := by omega
        subst this
        simp at hk
        omega
      obtain ⟨k', rfl⟩ : ∃ k', k = k' + 1 := ⟨k - 1, by omega⟩
      have hdivk : n / 128 < 128 ^ (k' + 1) := by
        have : n < 128 ^ (k' + 2) := hk
        have h128 : 0 < 128 := by norm_num
        rw [Nat.div_lt_iff_lt_mul h128]
        calc n < 128 ^ (k' + 2) := this
        _ = 128 ^ (k' + 1) * 128 := by ring
      have := ih hdiv hdivk
      simp only [writeVarNatAux, if_neg h, List.length_cons]
      omega

theorem readVarintLoop_writeVarNatAux {f n : Nat} (hf : n ≤ f) :
    ∀ fLoop acc shift rest, (writeVarNatAux f n).length ≤ fLoop →
    readVarintLoop fLoop acc shift (writeVarNatAux f n ++ rest) =
      some (acc + n * 2 ^ shift, rest) := by
  induction f generalizing n with
  | zero =>
    intro fLoop acc shift rest hlen
    have : n = 0 := by omega
    subst this
    simp only [writeVarNatAux, List.length_cons] at hlen ⊢
    match fLoop, hlen with
    | fL + 1, _ => simp [readVarintLoop]
  | succ f ih =>
    intro fLoop acc shift rest hlen
    by_cases h : n < 128
    · simp only [writeVarNatAux, if_pos h, List.length_cons] at hlen ⊢
      match fLoop, hlen with
      | fL + 1, _ => simp [readVarintLoop, h]
    · have hdiv : n / 128 ≤ f := by
        have h1 : n / 128 < n := Nat.div_lt_self (by omega) (by norm_num)
        omega
      simp only [writeVarNatAux, if_neg h, List.length_cons] at hlen ⊢
      match fLoop, hlen with
      | fL + 1, hlen =>
        have hmod : ¬ (n % 128 + 128 < 128) := by omega
        simp only [readVarintLoop, List.cons_append, if_neg hmod, List.append_eq]
        have hlen' : (writeVarNatAux f (n / 128)).length ≤ fL := by omega
        rw [ih hdiv fL _ _ rest hlen']
        congr 2
        have hsplit : n = 128 * (n / 128) + n % 128 := (Nat.div_add_mod n 128).symm
        have hmm : (n % 128 + 128) % 128 = n % 128 := by omega
        have h7 : (2 : ℕ) ^ 7 = 128 := by norm_num
        rw [hmm, pow_add, h7]
        conv_rhs => rw [hsplit]
        ring

theorem readRawVarint_writeVarNat {n : Nat} (hn : n < 2 ^ 31) (rest : List Nat) :
    readRawVarint (writeVarNat n ++ rest) = some (n, rest) := by
  have hlen : (writeVarNatAux n n).length ≤ 5 := by
    apply writeVarNatAux_length_le le_rfl
    calc n < 2 ^ 31 := hn
    _ < 128 ^ (4 + 1) := by norm_num
  have := readVarintLoop_writeVarNatAux (le_rfl : n ≤ n) 10 0 0 rest (by omega)
  simpa [readRawVarint, writeVarNat] using this

theorem readInt32_writeVarNat {n : Nat} (hn : n < 2 ^ 31) (rest : List Nat) :
    readInt32 (writeVarNat n ++ rest) = some ((n : Int), rest) := by
  rw [readInt32, readRawVarint_writeVarNat hn]
  rw [Option.map_some']
  rw [decodeInt32, Nat.mod_eq_of_lt (show n < 2 ^ 32 by omega), if_pos hn]

theorem readBytes_writeByteArray {bs : List Nat} (hbs : bs.length < 2 ^ 31)
    (rest : List Nat) :
    readBytes (writeByteArray bs ++ rest) = some (bs, rest) := by
  have h1 : readInt32 (writeVarNat bs.length ++ (bs ++ rest)) =
      some ((bs.length : Int), bs ++ rest) := readInt32_writeVarNat hbs _
  simp only [readBytes, writeByteArray, List.append_assoc, h1]
  rw [if_neg (show ¬ ((bs.length : Int) < 0) by omega)]
  rw [if_neg (show ¬ ((bs ++ rest).length < ((bs.length : Int)).toNat) by
    rw [List.length_append]; omega)]
  simp only [Int.toNat_natCast, List.take_left, List.drop_left]

theorem readBool_zero (rest : List Nat) : readBool (0 :: rest) = some (false, rest) := by
  simp [readBool, readRawVarint, readVarintLoop]

theorem readBool_one (rest : List Nat) : readBool (1 :: rest) = some (true, rest) := by
  simp [readBool, readRawVarint, readVarintLoop]

/-! ## Lemmas about the depth-first search -/

theorem ClosedSets.reach {g : Graph} {l : List HeapObj} (hc : ClosedSets g l)
    {i j : Nat} (hi : HeapObj.node i ∈ l) (hr : Reaches g i j) :
    HeapObj.node j ∈ l := by
  induction hr with
  | refl => exact hi
  | step hmem _ ih => exact ih (hc _ hi _ hmem)

theorem foldlM_option_induct {α σ : Type} (l0 : List α) (step : σ → α → Option σ)
    (P : σ → σ → Prop) (hrefl : ∀ s, P s s)
    (htrans : ∀ a b c, P a b → P b c → P a c)
    (hstep : ∀ s a s2, a ∈ l0 → step s a = some s2 → P s s2) :
    ∀ l s s2, (∀ a ∈ l, a ∈ l0) → List.foldlM step s l = some s2 → P s s2 := by
  intro l
  induction l with
  | nil =>
    intro s s2 _ h
    simp only [List.foldlM_nil] at h
    cases h
    exact hrefl s
  | cons a l ih =>
    intro s s2 hsub h
    simp only [List.foldlM_cons] at h
    cases hstep1 : step s a with
    | none => rw [hstep1] at h; cases h
    | some s1 =>
      rw [hstep1] at h
      exact htrans _ _ _ (hstep s a s1 (hsub a (by simp)) hstep1)
        (ih s1 s2 (fun b hb => hsub b (by simp [hb])) h)

theorem dfsFuel_succ (g : Graph) (fuel : Nat) (sets : List HeapObj) (c : HeapObj) :
    dfsFuel g (fuel+1) sets c =
      if c ∈ sets then some sets
      else
        match c with
        | .node id =>
          match (refsOf (nodeEntries g id)).foldlM
              (fun s j => dfsFuel g fuel s (HeapObj.node j)) sets with
          | none => none
          | some s2 => some (if c ∈ s2 then s2 else s2 ++ [c])
        | _ => some (sets ++ [c]) := rfl

/-- The visited set only grows, by appending on the right. -/
theorem dfs_prefix {g : Graph} :
    ∀ fuel sets c s2, dfsFuel g fuel sets c = some s2 → ∃ t, s2 = sets ++ t := by
  intro fuel
  induction fuel with
  | zero => intro sets c s2 h; cases h
  | succ fuel ih =>
    intro sets c s2 h
    rw [dfsFuel_succ] at h
    by_cases hmem : c ∈ sets
    · rw [if_pos hmem] at h
      cases h
      exact ⟨[], by simp⟩
    · rw [if_neg hmem] at h
      match c with
      | .empty => cases h; exact ⟨[.empty], rfl⟩
      | .payload p => cases h; exact ⟨[.payload p], rfl⟩
      | .node id =>
        dsimp only at h
        cases hfold : (refsOf (nodeEntries g id)).foldlM
            (fun s j => dfsFuel g fuel s (HeapObj.node j)) sets with
        | none => rw [hfold] at h; cases h
        | some s1 =>
          rw [hfold] at h
          have hpre : ∃ t, s1 = sets ++ t := by
            refine foldlM_option_induct (refsOf (nodeEntries g id))
              (fun s j => dfsFuel g fuel s (HeapObj.node j))
              (fun a b => ∃ t, b = a ++ t)
              (fun s => ⟨[], by simp⟩) ?_ ?_ _ sets s1 (fun a ha => ha) hfold
            · rintro a b c ⟨t1, rfl⟩ ⟨t2, rfl⟩
              exact ⟨t1 ++ t2, by simp⟩
            · intro s a s2 _ hs
              exact ih s _ s2 hs
          obtain ⟨t, rfl⟩ := hpre
          cases h
          split
          · exact ⟨t, rfl⟩
          · exact ⟨t ++ [HeapObj.node id], by simp⟩

/-- Corollary form for the reference fold inside the node case. -/
theorem dfsFold_prefix {g : Graph} {fuel : Nat} {l : List Nat}
    {sets s2 : List HeapObj}
    (h : l.foldlM (fun s j => dfsFuel g fuel s (HeapObj.node j)) sets = some s2) :
    ∃ t, s2 = sets ++ t := by
  refine foldlM_option_induct l (fun s j => dfsFuel g fuel s (HeapObj.node j))
    (fun a b => ∃ t, b = a ++ t)
    (fun s => ⟨[], by simp⟩) ?_ ?_ _ sets s2 (fun a ha => ha) h
  · rintro a b c ⟨t1, rfl⟩ ⟨t2, rfl⟩
    exact ⟨t1 ++ t2, by simp⟩
  · intro s a s2 _ hs
    exact dfs_prefix _ s _ s2 hs

/-- The starting object is in the returned visited set. -/
theorem dfs_mem {g : Graph} {fuel : Nat} {sets : List HeapObj} {c : HeapObj}
    {s2 : List HeapObj} (h : dfsFuel g fuel sets c = some s2) : c ∈ s2 := by
  match fuel with
  | 0 => cases h
  | fuel+1 =>
    rw [dfsFuel_succ] at h
    by_cases hmem : c ∈ sets
    · rw [if_pos hmem] at h; cases h; exact hmem
    · rw [if_neg hmem] at h
      match c with
      | .empty => cases h; simp
      | .payload p => cases h; simp
      | .node id =>
        dsimp only at h
        cases hfold : (refsOf (nodeEntries g id)).foldlM
            (fun s j => dfsFuel g fuel s (HeapObj.node j)) sets with
        | none => rw [hfold] at h; cases h
        | some s1 =>
          rw [hfold] at h
          cases h
          split
          · assumption
          · simp

/-- Everything visited by the reference fold is in the result. -/
theorem dfsFold_mem {g : Graph} {fuel : Nat} :
    ∀ (l : List Nat) (sets s2 : List HeapObj),
      l.foldlM (fun s j => dfsFuel g fuel s (HeapObj.node j)) sets = some s2 →
      ∀ j ∈ l, HeapObj.node j ∈ s2 := by
  intro l
  induction l with
  | nil => intro sets s2 h j hj; cases hj
  | cons a l ih =>
    intro sets s2 h j hj
    simp only [List.foldlM_cons] at h
    cases hstep : dfsFuel g fuel sets (HeapObj.node a) with
    | none => rw [hstep] at h; cases h
    | some s1 =>
      rw [hstep] at h
      rcases List.mem_cons.mp hj with rfl | hj
      · have h1 : HeapObj.node j ∈ s1 := dfs_mem hstep
        obtain ⟨t, rfl⟩ := dfsFold_prefix h
        exact List.mem_append_left _ h1
      · exact ih s1 s2 h j hj

/-- Everything the dfs adds is reachable from the start object. -/
theorem dfs_sound {g : Graph} :
    ∀ fuel sets c s2, dfsFuel g fuel sets c = some s2 →
      ∀ x ∈ s2, x ∈ sets ∨ ReachObj g c x := by
  intro fuel
  induction fuel with
  | zero => intro sets c s2 h; cases h
  | succ fuel ih =>
    intro sets c s2 h
    rw [dfsFuel_succ] at h
    by_cases hmem : c ∈ sets
    · rw [if_pos hmem] at h
      cases h
      exact fun x hx => Or.inl hx
    · rw [if_neg hmem] at h
      match c with
      | .empty =>
        cases h
        intro x hx
        rcases List.mem_append.mp hx with hx | hx
        · exact Or.inl hx
        · exact Or.inr (by simpa [ReachObj] using hx)
      | .payload p =>
        cases h
        intro x hx
        rcases List.mem_append.mp hx with hx | hx
        · exact Or.inl hx
        · exact Or.inr (by simpa [ReachObj] using hx)
      | .node id =>
        dsimp only at h
        cases hfold : (refsOf (nodeEntries g id)).foldlM
            (fun s j => dfsFuel g fuel s (HeapObj.node j)) sets with
        | none => rw [hfold] at h; cases h
        | some s1 =>
          rw [hfold] at h
          cases h
          have hs1 : ∀ x ∈ s1, x ∈ sets ∨
              ∃ j ∈ refsOf (nodeEntries g id), ReachObj g (HeapObj.node j) x := by
            intro x hx
            refine foldlM_option_induct (refsOf (nodeEntries g id))
              (fun s j => dfsFuel g fuel s (HeapObj.node j))
              (fun a b => ∀ x ∈ b, x ∈ a ∨
                ∃ j ∈ refsOf (nodeEntries g id), ReachObj g (HeapObj.node j) x)
              (fun s x hx => Or.inl hx) ?_ ?_ _ sets s1 (fun a ha => ha) hfold x hx
            · intro a b c hab hbc x hx
              rcases hbc x hx with hx2 | hx2
              · exact hab x hx2
              · exact Or.inr hx2
            · intro s a s2 hal hs x hx
              rcases ih s _ s2 hs x hx with hx2 | hx2
              · exact Or.inl hx2
              · exact Or.inr ⟨a, hal, hx2⟩
          intro x hx
          have hx3 : x ∈ s1 ∨ x = HeapObj.node id := by
            by_cases hc : HeapObj.node id ∈ s1
            · rw [if_pos hc] at hx; exact Or.inl hx
            · rw [if_neg hc] at hx
              rcases List.mem_append.mp hx with hx | hx
              · exact Or.inl hx
              · exact Or.inr (by simpa using hx)
          rcases hx3 with hx3 | rfl
          · rcases hs1 x hx3 with hx4 | ⟨j, hj, hx4⟩
            · exact Or.inl hx4
            · obtain ⟨k, rfl, hreach⟩ := hx4
              exact Or.inr ⟨k, rfl, Reaches.step hj hreach⟩
          · exact Or.inr ⟨id, rfl, Reaches.refl id⟩

theorem dfsFold_sound {g : Graph} {fuel : Nat} {l : List Nat}
    {sets s2 : List HeapObj}
    (h : l.foldlM (fun s j => dfsFuel g fuel s (HeapObj.node j)) sets = some s2) :
    ∀ x ∈ s2, x ∈ sets ∨ ∃ j ∈ l, ReachObj g (HeapObj.node j) x := by
  intro x hx
  refine foldlM_option_induct l (fun s j => dfsFuel g fuel s (HeapObj.node j))
    (fun a b => ∀ x ∈ b, x ∈ a ∨ ∃ j ∈ l, ReachObj g (HeapObj.node j) x)
    (fun s x hx => Or.inl hx) ?_ ?_ _ sets s2 (fun a ha => ha) h x hx
  · intro a b c hab hbc x hx
    rcases hbc x hx with hx2 | hx2
    · exact hab x hx2
    · exact Or.inr hx2
  · intro s a s2 hal hs x hx
    rcases dfs_sound _ s _ s2 hs x hx with hx2 | hx2
    · exact Or.inl hx2
    · exact Or.inr ⟨a, hal, hx2⟩

theorem nodup_append_single {α : Type} {l : List α} {a : α} (h : l.Nodup)
    (ha : a ∉ l) : (l ++ [a]).Nodup := by
  rw [List.nodup_append]
  exact ⟨h, List.nodup_singleton a, fun x hx hxa => ha (by
    rcases List.mem_singleton.mp hxa with rfl
    exact hx)⟩

/-- The visited set stays duplicate-free. -/
theorem dfs_nodup {g : Graph} :
    ∀ fuel sets c s2, dfsFuel g fuel sets c = some s2 → sets.Nodup → s2.Nodup := by
  intro fuel
  induction fuel with
  | zero => intro sets c s2 h; cases h
  | succ fuel ih =>
    intro sets c s2 h hnd
    rw [dfsFuel_succ] at h
    by_cases hmem : c ∈ sets
    · rw [if_pos hmem] at h; cases h; exact hnd
    · rw [if_neg hmem] at h
      match c with
      | .empty => cases h; exact nodup_append_single hnd hmem
      | .payload p => cases h; exact nodup_append_single hnd hmem
      | .node id =>
        dsimp only at h
        cases hfold : (refsOf (nodeEntries g id)).foldlM
            (fun s j => dfsFuel g fuel s (HeapObj.node j)) sets with
        | none => rw [hfold] at h; cases h
        | some s1 =>
          rw [hfold] at h
          cases h
          have hs1 : s1.Nodup := by
            refine foldlM_option_induct (refsOf (nodeEntries g id))
              (fun s j => dfsFuel g fuel s (HeapObj.node j))
              (fun a b => a.Nodup → b.Nodup)
              (fun s hs => hs) (fun a b c hab hbc hnd => hbc (hab hnd)) ?_
              _ sets s1 (fun a ha => ha) hfold hnd
            intro s a s2 _ hs hnd
            exact ih s _ s2 hs hnd
          split
          · exact hs1
          · exact nodup_append_single hs1 (by assumption)

theorem reaches_le {g : Graph} (hA : Acyclic g) :
    ∀ {a b}, Reaches g a b → a < g.length → b ≤ a := by
  intro a b h
  induction h with
  | refl => intro _; exact le_rfl
  | step hmem _ ih =>
    intro ha
    have hj := hA _ ha _ hmem
    exact le_trans (ih (lt_trans hj ha)) (le_of_lt hj)

/-- The dfs result is closed under references and contains everything
reachable from the start object. -/
theorem dfs_closed {g : Graph} :
    ∀ fuel sets c s2, dfsFuel g fuel sets c = some s2 → ClosedSets g sets →
      ClosedSets g s2 ∧ ∀ x, ReachObj g c x → x ∈ s2 := by
  intro fuel
  induction fuel with
  | zero => intro sets c s2 h; cases h
  | succ fuel ih =>
    intro sets c s2 h hcl
    rw [dfsFuel_succ] at h
    by_cases hmem : c ∈ sets
    · rw [if_pos hmem] at h
      cases h
      refine ⟨hcl, ?_⟩
      intro x hx
      match c, hx with
      | .empty, rfl => exact hmem
      | .payload p, rfl => exact hmem
      | .node i, ⟨j, rfl, hr⟩ => exact hcl.reach hmem hr
    · rw [if_neg hmem] at h
      match c with
      | .empty =>
        cases h
        refine ⟨?_, ?_⟩
        · intro id2 hmem2 j hj
          rcases List.mem_append.mp hmem2 with hmem2 | hmem2
          · exact List.mem_append_left _ (hcl id2 hmem2 j hj)
          · simp at hmem2
        · intro x hx
          cases hx
          simp
      | .payload p =>
        cases h
        refine ⟨?_, ?_⟩
        · intro id2 hmem2 j hj
          rcases List.mem_append.mp hmem2 with hmem2 | hmem2
          · exact List.mem_append_left _ (hcl id2 hmem2 j hj)
          · simp at hmem2
        · intro x hx
          cases hx
          simp
      | .node id =>
        dsimp only at h
        cases hfold : (refsOf (nodeEntries g id)).foldlM
            (fun s j => dfsFuel g fuel s (HeapObj.node j)) sets with
        | none => rw [hfold] at h; cases h
        | some s1 =>
          rw [hfold] at h
          cases h
          have hfoldres : ∀ (l : List Nat) (sets0 s10 : List HeapObj),
              ClosedSets g sets0 →
              l.foldlM (fun s j => dfsFuel g fuel s (HeapObj.node j)) sets0 = some s10 →
              ClosedSets g s10 ∧
                ∀ j ∈ l, ∀ x, ReachObj g (HeapObj.node j) x → x ∈ s10 := by
            intro l
            induction l with
            | nil =>
              intro sets0 s10 hcl0 hf
              simp only [List.foldlM_nil] at hf
              cases hf
              exact ⟨hcl0, fun j hj => absurd hj (by simp)⟩
            | cons a l ihl =>
              intro sets0 s10 hcl0 hf
              simp only [List.foldlM_cons] at hf
              cases hstep : dfsFuel g fuel sets0 (HeapObj.node a) with
              | none => rw [hstep] at hf; cases hf
              | some sA =>
                rw [hstep] at hf
                obtain ⟨hclA, hreachA⟩ := ih sets0 _ sA hstep hcl0
                obtain ⟨hcl1, hreach1⟩ := ihl sA s10 hclA hf
                obtain ⟨t, rfl⟩ := dfsFold_prefix hf
                refine ⟨hcl1, ?_⟩
                intro j hj x hx
                rcases List.mem_cons.mp hj with rfl | hj
                · exact List.mem_append_left _ (hreachA x hx)
                · exact hreach1 j hj x hx
          obtain ⟨hcl1, hreach1⟩ := hfoldres _ _ _ hcl hfold
          have hsub : ∀ x ∈ s1, x ∈ (if HeapObj.node id ∈ s1 then s1
              else s1 ++ [HeapObj.node id]) := by
            intro x hx
            split
            · exact hx
            · exact List.mem_append_left _ hx
          have hcmem : HeapObj.node id ∈ (if HeapObj.node id ∈ s1 then s1
              else s1 ++ [HeapObj.node id]) := by
            split
            · assumption
            · simp
          refine ⟨?_, ?_⟩
          · intro id2 hmem2 j hj
            by_cases hid2 : id2 = id
            · subst hid2
              exact hsub _ (hreach1 j hj _ ⟨j, rfl, Reaches.refl j⟩)
            · have hid2mem : HeapObj.node id2 ∈ s1 := by
                revert hmem2
                split
                · exact fun hmem2 => hmem2
                · intro hmem2
                  rcases List.mem_append.mp hmem2 with hmem2 | hmem2
                  · exact hmem2
                  · simp at hmem2
                    exact absurd hmem2 hid2
              exact hsub _ (hcl1 id2 hid2mem j hj)
          · rintro x ⟨k, rfl, hr⟩
            cases hr with
            | refl => exact hcmem
            | step hj hr2 => exact hsub _ (hreach1 _ hj _ ⟨k, rfl, hr2⟩)

theorem topoOrdered_nil {g : Graph} : TopoOrdered g [] := by
  intro i hi
  simp at hi

theorem topoOrdered_append_single {g : Graph} {l : List HeapObj} {c : HeapObj}
    (h : TopoOrdered g l)
    (hc : ∀ id, c = HeapObj.node id → ∀ j ∈ refsOf (nodeEntries g id),
      HeapObj.node j ∈ l) :
    TopoOrdered g (l ++ [c]) := by
  intro i hi id hid j hj
  rw [List.length_append, List.length_singleton] at hi
  by_cases hil : i < l.length
  · rw [List.getElem_append_left hil] at hid
    obtain ⟨k, hk, hki, hkget⟩ := h i hil id hid j hj
    exact ⟨k, by rw [List.length_append]; omega, hki,
      by rw [List.getElem_append_left hk]; exact hkget⟩
  · have hieq : i = l.length := by omega
    subst hieq
    rw [List.getElem_append_right (le_refl l.length)] at hid
    simp at hid
    obtain ⟨k, hk, hkget⟩ := List.mem_iff_getElem.mp (hc id hid j hj)
    refine ⟨k, by rw [List.length_append]; omega, hk, ?_⟩
    rw [List.getElem_append_left hk]
    exact hkget

/-- The dfs keeps the visited list topologically ordered. -/
theorem dfs_ordered {g : Graph} :
    ∀ fuel sets c s2, dfsFuel g fuel sets c = some s2 → TopoOrdered g sets →
      TopoOrdered g s2 := by
  intro fuel
  induction fuel with
  | zero => intro sets c s2 h; cases h
  | succ fuel ih =>
    intro sets c s2 h hord
    rw [dfsFuel_succ] at h
    by_cases hmem : c ∈ sets
    · rw [if_pos hmem] at h; cases h; exact hord
    · rw [if_neg hmem] at h
      match c with
      | .empty =>
        cases h
        exact topoOrdered_append_single hord (fun id hid => by cases hid)
      | .payload p =>
        cases h
        exact topoOrdered_append_single hord (fun id hid => by cases hid)
      | .node id =>
        dsimp only at h
        cases hfold : (refsOf (nodeEntries g id)).foldlM
            (fun s j => dfsFuel g fuel s (HeapObj.node j)) sets with
        | none => rw [hfold] at h; cases h
        | some s1 =>
          rw [hfold] at h
          cases h
          have hs1 : TopoOrdered g s1 := by
            refine foldlM_option_induct (refsOf (nodeEntries g id))
              (fun s j => dfsFuel g fuel s (HeapObj.node j))
              (fun a b => TopoOrdered g a → TopoOrdered g b)
              (fun s hs => hs) (fun a b c hab hbc ho => hbc (hab ho)) ?_
              _ sets s1 (fun a ha => ha) hfold hord
            intro s a s2 _ hs ho
            exact ih s _ s2 hs ho
          split
          · exact hs1
          · refine topoOrdered_append_single hs1 ?_
            intro id2 hid2 j hj
            cases hid2
            exact dfsFold_mem _ _ _ hfold j hj

/-- Started from an empty visited set, the dfs puts the root last. -/
theorem dfs_last {g : Graph} (hA : Acyclic g) {fuel : Nat} {c : HeapObj}
    {s2 : List HeapObj} (hwf : WfRoot g c) (h : dfsFuel g fuel [] c = some s2) :
    ∃ t, s2 = t ++ [c] := by
  match fuel with
  | 0 => cases h
  | fuel+1 =>
    rw [dfsFuel_succ] at h
    rw [if_neg (by simp)] at h
    match c with
    | .empty => cases h; exact ⟨[], rfl⟩
    | .payload p => cases h; exact ⟨[], rfl⟩
    | .node r =>
      dsimp only at h
      cases hfold : (refsOf (nodeEntries g r)).foldlM
          (fun s j => dfsFuel g fuel s (HeapObj.node j)) [] with
      | none => rw [hfold] at h; cases h
      | some s1 =>
        rw [hfold] at h
        cases h
        have hnotin : HeapObj.node r ∉ s1 := by
          intro hin
          rcases dfsFold_sound hfold _ hin with hin2 | ⟨j, hj, k, hk, hr2⟩
          · simp at hin2
          · injection hk with hkk
            subst hkk
            have hjlt : j < r := hA r hwf j hj
            have := reaches_le hA hr2 (lt_trans hjlt hwf)
            omega
        rw [if_neg hnotin]
        exact ⟨s1, rfl⟩

/-- With fuel exceeding the start index, the dfs on an acyclic graph
terminates. -/
theorem dfs_node_success {g : Graph} (hA : Acyclic g) :
    ∀ fuel id sets, id < fuel →
      ∃ s2, dfsFuel g fuel sets (HeapObj.node id) = some s2 := by
  intro fuel
  induction fuel with
  | zero => intro id sets hid; omega
  | succ fuel ih =>
    intro id sets hid
    by_cases hmem : HeapObj.node id ∈ sets
    · exact ⟨sets, by rw [dfsFuel_succ, if_pos hmem]⟩
    · have hrefs : ∀ j ∈ refsOf (nodeEntries g id), j < id := by
        intro j hj
        by_cases hlen : id < g.length
        · exact hA id hlen j hj
        · rw [nodeEntries, List.getD_eq_default _ _ (by omega)] at hj
          simp [refsOf] at hj
      have hfold : ∀ (l : List Nat), (∀ j ∈ l, j < id) → ∀ sets0,
          ∃ s1, l.foldlM (fun s j => dfsFuel g fuel s (HeapObj.node j)) sets0 =
            some s1 := by
        intro l
        induction l with
        | nil => intro _ sets0; exact ⟨sets0, by simp⟩
        | cons a l ihl =>
          intro hl sets0
          obtain ⟨sA, hsA⟩ := ih a sets0 (by have := hl a (by simp); omega)
          obtain ⟨s1, hs1⟩ := ihl (fun j hj => hl j (by simp [hj])) sA
          refine ⟨s1, ?_⟩
          simp only [List.foldlM_cons, hsA]
          exact hs1
      obtain ⟨s1, hs1⟩ := hfold _ hrefs sets
      refine ⟨if HeapObj.node id ∈ s1 then s1 else s1 ++ [HeapObj.node id], ?_⟩
      rw [dfsFuel_succ, if_neg hmem]
      dsimp only
      rw [hs1]

/-- The topological sort succeeds on well-formed acyclic input with fuel
g.length + 1. -/
theorem topo_success {g : Graph} (hA : Acyclic g) {c : HeapObj}
    (hwf : WfRoot g c) :
    ∃ out, getTopologicallySortedChildren g (g.length + 1) c = some out := by
  match c with
  | .empty =>
    refine ⟨[.empty], ?_⟩
    rw [getTopologicallySortedChildren, dfsFuel_succ, if_neg (by simp)]
    rfl
  | .payload p =>
    refine ⟨[.payload p], ?_⟩
    rw [getTopologicallySortedChildren, dfsFuel_succ, if_neg (by simp)]
    rfl
  | .node id =>
    exact dfs_node_success hA (g.length + 1) id [] (by exact Nat.lt_succ_of_lt hwf)


/-! ## Positions in a topologically ordered list -/

theorem topoOrdered_reaches_pos {g : Graph} {l : List HeapObj}
    (hord : TopoOrdered g l) :
    ∀ {a b}, Reaches g a b → ∀ ia, (hia : ia < l.length) →
      l[ia] = HeapObj.node a →
      ∃ ib, ∃ hib : ib < l.length, ib ≤ ia ∧ l[ib] = HeapObj.node b := by
  intro a b h
  induction h with
  | refl => intro ia hia hget; exact ⟨ia, hia, le_rfl, hget⟩
  | step hmem _ ih =>
    intro ia hia hget
    obtain ⟨k, hk, hki, hkget⟩ := hord ia hia _ hget _ hmem
    obtain ⟨ib, hib, hbk, hbget⟩ := ih k hk hkget
    exact ⟨ib, hib, by omega, hbget⟩

/-- C3: for every acyclic root children node, the topological sort returns
each distinct transitively reachable children node exactly once, every node
appears after all children nodes it references, and the root is the last
element of the returned sequence. -/
theorem c3_topological_sort (g : Graph) (c : HeapObj) (hA : Acyclic g)
    (hwf : WfRoot g c) :
    ∃ out, getTopologicallySortedChildren g (g.length + 1) c = some out ∧
      out.Nodup ∧
      (∀ x, x ∈ out ↔ ReachObj g c x) ∧
      TopoOrdered g out ∧
      ∃ t, out = t ++ [c] := by
  obtain ⟨out, hout⟩ := topo_success hA hwf
  have hout2 : dfsFuel g (g.length + 1) [] c = some out := hout
  refine ⟨out, hout, ?_, ?_, ?_, ?_⟩
  · exact dfs_nodup _ _ _ _ hout2 List.nodup_nil
  · intro x
    constructor
    · intro hx
      rcases dfs_sound _ _ _ _ hout2 x hx with h | h
      · simp at h
      · exact h
    · intro hx
      exact (dfs_closed _ _ _ _ hout2 (fun id hid => by simp at hid)).2 x hx
  · exact dfs_ordered _ _ _ _ hout2 topoOrdered_nil
  · exact dfs_last hA hwf hout2

theorem c3_topological_sort_witness :
    Acyclic [[Entry.payload 1, Entry.payload 2], [Entry.ref 0, Entry.payload 3]] ∧
    WfRoot [[Entry.payload 1, Entry.payload 2], [Entry.ref 0, Entry.payload 3]]
      (HeapObj.node 1) ∧
    ∃ out, getTopologicallySortedChildren
        [[Entry.payload 1, Entry.payload 2], [Entry.ref 0, Entry.payload 3]] 3
        (HeapObj.node 1) = some out ∧
      out.Nodup ∧
      (∀ x, x ∈ out ↔ ReachObj
        [[Entry.payload 1, Entry.payload 2], [Entry.ref 0, Entry.payload 3]]
        (HeapObj.node 1) x) ∧
      TopoOrdered [[Entry.payload 1, Entry.payload 2], [Entry.ref 0, Entry.payload 3]]
        out ∧
      ∃ t, out = t ++ [HeapObj.node 1] :=
  ⟨by decide, by decide,
    c3_topological_sort [[Entry.payload 1, Entry.payload 2],
      [Entry.ref 0, Entry.payload 3]] (HeapObj.node 1) (by decide) (by decide)⟩

/-! ## C4: behavior on cyclic input -/

theorem c4Graph_dfs_diverges :
    ∀ fuel, dfsFuel c4Graph fuel [] (HeapObj.node 0) = none := by
  intro fuel
  induction fuel with
  | zero => rfl
  | succ fuel ih =>
    rw [dfsFuel_succ, if_neg (by simp)]
    dsimp only
    have hrefs : refsOf (nodeEntries c4Graph 0) = [0] := rfl
    rw [hrefs]
    simp only [List.foldlM_cons, ih]
    rfl

/-- C4 counterexample: on the self-referential children graph, serialization
terminates at no recursion depth with any result at all — in particular it
never fails with an INVARIANT-VIOLATION (or any other) error. -/
theorem c4_counterexample :
    ¬ ∃ fuel r, serialize hashPair pencV fuel c4Graph
        ⟨Order.stable, HeapObj.node 0⟩ = some r := by
  rintro ⟨fuel, r, h⟩
  rw [serialize] at h
  rw [if_pos (show shouldSerializeNestedSet = true from rfl)] at h
  have hd : getTopologicallySortedChildren c4Graph fuel (HeapObj.node 0) = none :=
    c4Graph_dfs_diverges fuel
  rw [show (⟨Order.stable, HeapObj.node 0⟩ : NestedSet).children = HeapObj.node 0
    from rfl] at h
  rw [hd] at h
  cases h

/-- C4 (amended): the dfs performs no cycle detection.  On any graph with a
cycle reachable from the root, the topological sort exceeds every recursion
depth (in Java, unbounded recursion ending in StackOverflowError), so
serialization neither raises an INVARIANT-VIOLATION error nor produces
output. -/
theorem c4_cycle_no_detection (g : Graph) (r i : Nat) (hri : Reaches g r i)
    (hcyc : ∃ j ∈ refsOf (nodeEntries g i), Reaches g j i) :
    ∀ fuel, getTopologicallySortedChildren g fuel (HeapObj.node r) = none ∧
      ∀ hh penc o, serialize hh penc fuel g ⟨o, HeapObj.node r⟩ = none := by
  intro fuel
  have hdfs : getTopologicallySortedChildren g fuel (HeapObj.node r) = none := by
    rw [getTopologicallySortedChildren]
    cases hout : dfsFuel g fuel [] (HeapObj.node r) with
    | none => rfl
    | some out =>
      exfalso
      have hclosed := dfs_closed _ _ _ _ hout (fun id hid => by simp at hid)
      have hmem_i : HeapObj.node i ∈ out := hclosed.2 _ ⟨i, rfl, hri⟩
      have hord := dfs_ordered _ _ _ _ hout topoOrdered_nil
      obtain ⟨ia, hia, hgeti⟩ := List.mem_iff_getElem.mp hmem_i
      have hdescend : ∀ ia, ∀ hia : ia < out.length,
          out[ia] = HeapObj.node i → False := by
        intro ia
        induction ia using Nat.strong_induction_on with
        | _ ia IH =>
          intro hia hget
          obtain ⟨j, hj, hrj⟩ := hcyc
          obtain ⟨k, hk, hki, hkget⟩ := hord ia hia _ hget _ hj
          obtain ⟨ib, hib, hbk, hbget⟩ :=
            topoOrdered_reaches_pos hord hrj k hk hkget
          exact IH ib (by omega) hib hbget
      exact hdescend ia hia hgeti
  refine ⟨hdfs, ?_⟩
  intro hh penc o
  rw [serialize, if_pos (show shouldSerializeNestedSet = true from rfl)]
  rw [show (⟨o, HeapObj.node r⟩ : NestedSet).children = HeapObj.node r from rfl]
  rw [hdfs]

theorem c4_cycle_no_detection_witness :
    Reaches c4Graph 0 0 ∧
    (∃ j ∈ refsOf (nodeEntries c4Graph 0), Reaches c4Graph j 0) ∧
    (∀ fuel, getTopologicallySortedChildren c4Graph fuel (HeapObj.node 0) = none ∧
      ∀ hh penc o, serialize hh penc fuel c4Graph ⟨o, HeapObj.node 0⟩ = none) :=
  ⟨Reaches.refl 0, ⟨0, by decide, Reaches.refl 0⟩,
    c4_cycle_no_detection c4Graph 0 0 (Reaches.refl 0)
      ⟨0, by decide, Reaches.refl 0⟩⟩

/-! ## Frame-level behavior of the deserializer -/

theorem deserializeOne_frame (pdec : PDec) (st : DState) (d b rest : List Nat)
    (hd : d.length < 2 ^ 31) (hb : b.length < 2 ^ 31) :
    deserializeOneNestedSet pdec st
        (writeByteArray d ++ (writeByteArray b ++ rest)) =
      match readInt32 b with
      | none => .error .malformed
      | some (childCount, bodyRest) =>
        match buildChildValue pdec st childCount bodyRest with
        | .error e => .error e
        | .ok (result, heap2) =>
          .ok ((internResult st d result heap2).1,
            (internResult st d result heap2).2, rest) := by
  simp only [deserializeOneNestedSet, readBytes_writeByteArray hd,
    readBytes_writeByteArray hb]

/-- C6: a declared envelope count below 1 (in particular 0) is rejected with
an error before any frame is read, and every successful read had count at
least 1. -/
theorem c6_envelope_count (pdec : PDec) (st : DState) (s : List Nat) :
    (∀ n rest, readInt32 s = some (n, rest) → n < 1 →
      deserialize pdec st s = .error Err.invalidCount) ∧
    (∀ r, deserialize pdec st s = .ok r →
      ∃ n rest, readInt32 s = some (n, rest) ∧ 1 ≤ n) := by
  constructor
  · intro n rest h hneg
    simp only [deserialize, if_pos (show shouldSerializeNestedSet = true from rfl), h]
    rw [if_pos hneg]
  · intro r h
    simp only [deserialize,
      if_pos (show shouldSerializeNestedSet = true from rfl)] at h
    cases hc : readInt32 s with
    | none => rw [hc] at h; cases h
    | some x =>
      obtain ⟨n, s1⟩ := x
      simp only [hc] at h
      by_cases hneg : n < 1
      · rw [if_pos hneg] at h; cases h
      · exact ⟨n, s1, rfl, by omega⟩

theorem c6_envelope_count_witness :
    readInt32 (writeVarNat 0) = some (0, []) ∧
    deserialize pdecV ⟨[], []⟩ (writeVarNat 0) = .error Err.invalidCount :=
  ⟨by decide, (c6_envelope_count pdecV ⟨[], []⟩ (writeVarNat 0)).1 0 []
    (by decide) (by decide)⟩

/-- C10: a frame body declaring a negative child count is not rejected as
malformed: it yields the EMPTY children sentinel exactly as a zero count
does, and reading continues after the frame. -/
theorem c10_negative_child_count (pdec : PDec) (st : DState)
    (d b rest rest2 : List Nat) (k : Int)
    (hd : d.length < 2 ^ 31) (hb : b.length < 2 ^ 31)
    (hk : readInt32 b = some (k, rest2)) (hneg : k < 0) :
    deserializeOneNestedSet pdec st
        (writeByteArray d ++ (writeByteArray b ++ rest)) =
      deserializeOneNestedSet pdec st
        (writeByteArray d ++ (writeByteArray (writeVarNat 0) ++ rest)) ∧
    deserializeOneNestedSet pdec st
        (writeByteArray d ++ (writeByteArray b ++ rest)) =
      .ok ((internResult st d DVal.empty st.heap).1,
        (internResult st d DVal.empty st.heap).2, rest) := by
  have hlen0 : (writeVarNat 0).length < 2 ^ 31 := by decide
  have h0 : readInt32 (writeVarNat 0) = some (0, []) := by decide
  have hbuild : buildChildValue pdec st k rest2 = .ok (DVal.empty, st.heap) := by
    rw [buildChildValue, if_neg (by omega), if_neg (by omega)]
  have hbuild0 : buildChildValue pdec st 0 [] = .ok (DVal.empty, st.heap) := by
    rw [buildChildValue]
    rw [if_neg (by omega), if_neg (by omega)]
  constructor
  · rw [deserializeOne_frame pdec st d b rest hd hb,
      deserializeOne_frame pdec st d (writeVarNat 0) rest hd hlen0]
    simp only [hk, h0, hbuild, hbuild0]
  · rw [deserializeOne_frame pdec st d b rest hd hb]
    simp only [hk, hbuild]

theorem c10_negative_child_count_witness :
    readInt32 [255, 255, 255, 255, 15] = some (-1, []) ∧ (-1 : Int) < 0 ∧
    deserializeOneNestedSet pdecV ⟨[], []⟩
        (writeByteArray [5] ++ (writeByteArray [255, 255, 255, 255, 15] ++ [])) =
      .ok ((internResult ⟨[], []⟩ [5] DVal.empty []).1,
        (internResult ⟨[], []⟩ [5] DVal.empty []).2, []) :=
  ⟨by decide, by decide,
    (c10_negative_child_count pdecV ⟨[], []⟩ [5] [255, 255, 255, 255, 15] [] []
      (-1) (by decide) (by decide) (by decide) (by decide)).2⟩

/-! ## C5: reference resolution -/

/-- C5 counterexample: the blob references digest [7] that none of its own
frames produced.  The claim demands a MISSING-REFERENCE failure (local
per-blob table), but with the process-wide digestToChild map pre-populated by
another deserialization call, the read succeeds and adopts the foreign value;
only with an empty process-wide map does it fail. -/
theorem c5_counterexample :
    deserialize pdecV ⟨[], [([7], DVal.payload 42)]⟩ c5Blob =
      .ok (⟨Order.stable, DVal.arr 0⟩,
        ⟨[[DVal.payload 42, DVal.payload 5]],
          [([99], DVal.arr 0), ([7], DVal.payload 42)]⟩, []) ∧
    deserialize pdecV ⟨[], []⟩ c5Blob = .error Err.missingReference := by
  constructor
  · decide
  · decide

/-- C5 (amended): a digest reference inside a BRANCH entry is resolved against
the process-wide digestToChild map in whatever state that shared map is at the
moment of the lookup — the value bound there is adopted, and the read fails
with MISSING-REFERENCE (checkNotNull "Transitive nested set missing") exactly
when the digest is absent from that shared map. -/
theorem c5_ref_resolution (pdec : PDec) (interner : List (List Nat × DVal))
    (d s : List Nat) (k : Nat) (hd : d.length < 2 ^ 31) :
    (∀ v, alookup d interner = some v →
      readChildEntries pdec interner (k + 1)
          (writeBool true ++ (writeByteArray d ++ s)) =
        match readChildEntries pdec interner k s with
        | .error e => .error e
        | .ok (vs, s3) => .ok (v :: vs, s3)) ∧
    (alookup d interner = none →
      readChildEntries pdec interner (k + 1)
          (writeBool true ++ (writeByteArray d ++ s)) =
        .error Err.missingReference) := by
  have hbool : readBool (writeBool true ++ (writeByteArray d ++ s)) =
      some (true, writeByteArray d ++ s) := readBool_one _
  have hbytes : readBytes (writeByteArray d ++ s) = some (d, s) :=
    readBytes_writeByteArray hd _
  constructor
  · intro v hv
    simp only [readChildEntries, hbool, hbytes, hv]
  · intro hv
    simp only [readChildEntries, hbool, hbytes, hv]

theorem c5_ref_resolution_witness :
    ([7] : List Nat).length < 2 ^ 31 ∧
    alookup [7] [([7], DVal.payload 42)] = some (DVal.payload 42) ∧
    readChildEntries pdecV [([7], DVal.payload 42)] 1
        (writeBool true ++ (writeByteArray [7] ++ [])) =
      match readChildEntries pdecV [([7], DVal.payload 42)] 0 [] with
      | .error e => .error e
      | .ok (vs, s3) => .ok (DVal.payload 42 :: vs, s3) :=
  ⟨by decide, by decide,
    (c5_ref_resolution pdecV [([7], DVal.payload 42)] [7] [] 0 (by decide)).1
      (DVal.payload 42) (by decide)⟩

/-! ## Replay: a second read over the same bytes adopts the interned values -/

theorem alookup_insert_absent {α β : Type} [DecidableEq α]
    {l : List (α × β)} {k k2 : α} {v : β} {v2 : β}
    (hk2 : alookup k2 l = none) (h : alookup k l = some v) :
    alookup k ((k2, v2) :: l) = some v := by
  rw [alookup, if_neg, h]
  intro heq
  rw [heq, h] at hk2
  cases hk2

theorem internerLe_refl (st : DState) : InternerLe st st := fun _ _ h => h

theorem internerLe_trans {a b c : DState} (h1 : InternerLe a b)
    (h2 : InternerLe b c) : InternerLe a c :=
  fun d v h => h2 d v (h1 d v h)

/-- The value a frame returns is the value bound to its digest afterwards, the
map only grows, and the pre-existing heap is preserved as a prefix. -/
theorem deserializeOne_props {pdec : PDec} {st : DState} {s : List Nat}
    {v : DVal} {st2 : DState} {s2 : List Nat}
    (h : deserializeOneNestedSet pdec st s = .ok (v, st2, s2)) :
    InternerLe st st2 ∧
    ∃ digest s1 body, readBytes s = some (digest, s1) ∧
      readBytes s1 = some (body, s2) ∧
      alookup digest st2.interner = some v := by
  rw [deserializeOneNestedSet] at h
  cases h1 : readBytes s with
  | none => simp only [h1] at h; cases h
  | some x1 =>
    obtain ⟨digest, s1⟩ := x1
    simp only [h1] at h
    cases h2 : readBytes s1 with
    | none => simp only [h2] at h; cases h
    | some x2 =>
      obtain ⟨body, s2x⟩ := x2
      simp only [h2] at h
      cases h3 : readInt32 body with
      | none => simp only [h3] at h; cases h
      | some x3 =>
        obtain ⟨cc, bodyRest⟩ := x3
        simp only [h3] at h
        cases h4 : buildChildValue pdec st cc bodyRest with
        | error e => simp only [h4] at h; cases h
        | ok x4 =>
          obtain ⟨result, heap2⟩ := x4
          simp only [h4] at h
          rw [internResult] at h
          cases h5 : alookup digest st.interner with
          | some old =>
            simp only [h5] at h
            injection h with h
            injection h with hv h
            injection h with hst hs
            subst hv
            subst hst
            subst hs
            exact ⟨internerLe_refl st, digest, s1, body, rfl, h2, h5⟩
          | none =>
            simp only [h5] at h
            injection h with h
            injection h with hv h
            injection h with hst hs
            subst hv
            subst hst
            subst hs
            refine ⟨?_, digest, s1, body, rfl, h2, ?_⟩
            · intro d w hw
              exact alookup_insert_absent h5 hw
            · rw [alookup, if_pos rfl]

/-- Entry parsing only reads the shared map, so it is stable under growing it. -/
theorem readChildEntries_mono {pdec : PDec}
    {I J : List (List Nat × DVal)}
    (hle : ∀ d v, alookup d I = some v → alookup d J = some v) :
    ∀ k s vs s3, readChildEntries pdec I k s = .ok (vs, s3) →
      readChildEntries pdec J k s = .ok (vs, s3) := by
  intro k
  induction k with
  | zero =>
    intro s vs s3 h
    rw [readChildEntries] at h ⊢
    exact h
  | succ k ih =>
    intro s vs s3 h
    rw [readChildEntries] at h ⊢
    cases hb : readBool s with
    | none => simp only [hb] at h; cases h
    | some xb =>
      obtain ⟨bit, s1⟩ := xb
      simp only [hb] at h
      match bit with
      | true =>
        cases hd : readBytes s1 with
        | none => simp only [hd] at h; cases h
        | some xd =>
          obtain ⟨d, s2⟩ := xd
          simp only [hd] at h
          cases hv : alookup d I with
          | none => simp only [hv] at h; cases h
          | some v =>
            simp only [hv] at h
            simp only [hd, hle d v hv]
            cases hrest : readChildEntries pdec I k s2 with
            | error e => simp only [hrest] at h; cases h
            | ok xr =>
              obtain ⟨vs2, s3x⟩ := xr
              simp only [hrest] at h
              simp only [ih _ _ _ hrest]
              exact h
      | false =>
        cases hp : pdec s1 with
        | none => simp only [hp] at h; cases h
        | some xp =>
          obtain ⟨p, s2⟩ := xp
          simp only [hp] at h
          simp only [hp]
          cases hrest : readChildEntries pdec I k s2 with
          | error e => simp only [hrest] at h; cases h
          | ok xr =>
            obtain ⟨vs2, s3x⟩ := xr
            simp only [hrest] at h
            simp only [ih _ _ _ hrest]
            exact h

/-- Replaying one frame against a state that already has all bindings of the
first run's result returns the very value the first run returned, and does
not change the shared map. -/
theorem deserializeOne_replay {pdec : PDec} {st T : DState} {s : List Nat}
    {v : DVal} {st2 : DState} {s2 : List Nat}
    (h : deserializeOneNestedSet pdec st s = .ok (v, st2, s2))
    (hle0 : InternerLe st st2) (hle : InternerLe st2 T) :
    ∃ heapT, deserializeOneNestedSet pdec T s = .ok (v, ⟨heapT, T.interner⟩, s2) := by
  have hprops := deserializeOne_props h
  obtain ⟨_, digest0, s10, body0, hr1, hr2, hbind⟩ := hprops
  have hbindT : alookup digest0 T.interner = some v := hle _ _ hbind
  rw [deserializeOneNestedSet] at h ⊢
  simp only [hr1] at h ⊢
  simp only [hr2] at h ⊢
  cases h3 : readInt32 body0 with
  | none => simp only [h3] at h; cases h
  | some x3 =>
    obtain ⟨cc, bodyRest⟩ := x3
    simp only [h3] at h ⊢
    cases h4 : buildChildValue pdec st cc bodyRest with
    | error e => simp only [h4] at h; cases h
    | ok x4 =>
      obtain ⟨result, heap2⟩ := x4
      simp only [h4] at h
      have hbuildT : ∃ resultT heap2T,
          buildChildValue pdec T cc bodyRest = .ok (resultT, heap2T) := by
        rw [buildChildValue] at h4 ⊢
        by_cases hcc : cc > 1
        · rw [if_pos hcc] at h4 ⊢
          cases h5 : readChildEntries pdec st.interner cc.toNat bodyRest with
          | error e => simp only [h5] at h4; cases h4
          | ok x5 =>
            obtain ⟨vs, srest⟩ := x5
            have hT : readChildEntries pdec T.interner cc.toNat bodyRest =
                .ok (vs, srest) :=
              readChildEntries_mono
                (fun d w hw => hle d w (hle0 d w hw)) _ _ _ _ h5
            simp only [hT]
            exact ⟨_, _, rfl⟩
        · rw [if_neg hcc] at h4 ⊢
          by_cases hcc1 : cc = 1
          · rw [if_pos hcc1] at h4 ⊢
            cases h5 : pdec bodyRest with
            | none => simp only [h5] at h4; cases h4
            | some x5 =>
              obtain ⟨p, srest⟩ := x5
              simp only [h5]
              exact ⟨_, _, rfl⟩
          · rw [if_neg hcc1] at h4 ⊢
            exact ⟨_, _, rfl⟩
      obtain ⟨resultT, heap2T, hbT⟩ := hbuildT
      simp only [hbT]
      rw [internResult] at h ⊢
      simp only [hbindT]
      cases h5 : alookup digest0 st.interner with
      | some old =>
        simp only [h5] at h
        injection h with h
        injection h with hv h
        subst hv
        exact ⟨heap2T, rfl⟩
      | none =>
        simp only [h5] at h
        injection h with h
        injection h with hv h
        subst hv
        exact ⟨heap2T, rfl⟩

theorem deserializeFrames_zero (pdec : PDec) (st : DState) (s : List Nat)
    (last : DVal) : deserializeFrames pdec 0 st s last = .ok (last, st, s) := rfl

theorem deserializeFrames_succ (pdec : PDec) (n : Nat) (st : DState)
    (s : List Nat) (last : DVal) :
    deserializeFrames pdec (n + 1) st s last =
      match deserializeOneNestedSet pdec st s with
      | .error e => .error e
      | .ok (v, st2, s2) => deserializeFrames pdec n st2 s2 v := rfl

theorem deserializeFrames_le {pdec : PDec} :
    ∀ n (st : DState) s last v st2 s2,
      deserializeFrames pdec n st s last = .ok (v, st2, s2) →
      InternerLe st st2 := by
  intro n
  induction n with
  | zero =>
    intro st s last v st2 s2 h
    rw [deserializeFrames_zero] at h
    injection h with h
    injection h with hv h
    injection h with hst hs
    rw [← hst]
    exact internerLe_refl st
  | succ n ih =>
    intro st s last v st2 s2 h
    rw [deserializeFrames_succ] at h
    cases h1 : deserializeOneNestedSet pdec st s with
    | error e => simp only [h1] at h; cases h
    | ok x =>
      obtain ⟨v1, stA, sA⟩ := x
      simp only [h1] at h
      exact internerLe_trans (deserializeOne_props h1).1 (ih stA sA v1 v st2 s2 h)

theorem deserializeFrames_replay {pdec : PDec} :
    ∀ n (st T : DState) s last v st2 s2,
      deserializeFrames pdec n st s last = .ok (v, st2, s2) →
      InternerLe st2 T →
      ∃ st2T, deserializeFrames pdec n T s last = .ok (v, st2T, s2) ∧
        st2T.interner = T.interner := by
  intro n
  induction n with
  | zero =>
    intro st T s last v st2 s2 h hle
    rw [deserializeFrames_zero] at h
    injection h with h
    injection h with hv h
    injection h with hst hs
    subst hv
    subst hs
    exact ⟨T, rfl, rfl⟩
  | succ n ih =>
    intro st T s last v st2 s2 h hle
    rw [deserializeFrames_succ] at h ⊢
    cases h1 : deserializeOneNestedSet pdec st s with
    | error e => simp only [h1] at h; cases h
    | ok x =>
      obtain ⟨v1, stA, sA⟩ := x
      simp only [h1] at h
      have hleA : InternerLe stA st2 := deserializeFrames_le n stA sA v1 v st2 s2 h
      obtain ⟨heapT, hT1⟩ := deserializeOne_replay h1 (deserializeOne_props h1).1
        (internerLe_trans hleA hle)
      obtain ⟨st2T, hok, hint⟩ := ih stA ⟨heapT, T.interner⟩ sA v1 v st2 s2 h
        (fun d w hw => hle d w hw)
      refine ⟨st2T, ?_, hint⟩
      simp only [hT1]
      exact hok

/-- C7: reading the same blob a second time (with the first read's state
live) returns a nested set whose children value is the identical object the
first read produced: every frame's putIfAbsent finds the binding the first
read installed and adopts it. -/
theorem c7_interner_idempotence (pdec : PDec) (st0 : DState) (bytes : List Nat)
    (ns1 : DNestedSet) (st1 : DState) (r1 : List Nat)
    (h1 : deserialize pdec st0 bytes = .ok (ns1, st1, r1)) :
    ∃ st2, deserialize pdec st1 bytes = .ok (ns1, st2, r1) := by
  rw [deserialize, if_pos (show shouldSerializeNestedSet = true from rfl)] at h1 ⊢
  cases hc : readInt32 bytes with
  | none => simp only [hc] at h1; cases h1
  | some x =>
    obtain ⟨n, s1⟩ := x
    simp only [hc] at h1 ⊢
    by_cases hneg : n < 1
    · rw [if_pos hneg] at h1; cases h1
    · rw [if_neg hneg] at h1 ⊢
      cases ho : deserializeOrder s1 with
      | error e => simp only [ho] at h1; cases h1
      | ok xo =>
        obtain ⟨order, s2⟩ := xo
        simp only [ho] at h1 ⊢
        cases hf : deserializeFrames pdec n.toNat st0 s2 DVal.empty with
        | error e => simp only [hf] at h1; cases h1
        | ok xf =>
          obtain ⟨children, stF, s3⟩ := xf
          simp only [hf] at h1
          injection h1 with h1
          injection h1 with hns h1
          injection h1 with hst hs
          rw [← hns, ← hst, ← hs]
          obtain ⟨st2T, hok, _⟩ := deserializeFrames_replay n.toNat st0 stF s2
            DVal.empty children stF s3 hf (internerLe_refl stF)
          refine ⟨st2T, ?_⟩
          simp only [hok]

theorem c7_interner_idempotence_witness :
    deserialize pdecV ⟨[], []⟩ [1, 0, 1, 1, 1, 0] =
      .ok (Order.stable.emptySet, ⟨[], [([1], DVal.empty)]⟩, []) ∧
    ∃ st2, deserialize pdecV ⟨[], [([1], DVal.empty)]⟩ [1, 0, 1, 1, 1, 0] =
      .ok (Order.stable.emptySet, st2, []) :=
  ⟨by decide, c7_interner_idempotence pdecV ⟨[], []⟩ [1, 0, 1, 1, 1, 0]
    Order.stable.emptySet ⟨[], [([1], DVal.empty)]⟩ [] (by decide)⟩

/-! ## C9: empty nested sets round-trip through the codec itself -/

theorem order_ofOrdinal_ordinal (o : Order) : Order.ofOrdinal o.ordinal = some o := by
  cases o <;> rfl

theorem order_ordinal_lt (o : Order) : o.ordinal < 2 ^ 31 := by
  cases o <;> norm_num [Order.ordinal]

/-- C9: serializing an empty nested set succeeds at this layer and emits a
one-frame envelope (count 1, then a frame whose body is varint(0)); reading
that stream back from a fresh state succeeds and returns the empty set of the
transmitted order-kind.  No caller-side short-circuit is involved. -/
theorem c9_empty_roundtrip (hh : List Nat → List Nat) (penc : Nat → List Nat)
    (pdec : PDec) (g : Graph) (o : Order)
    (hlen : (hh (writeVarNat 0)).length < 2 ^ 31) :
    serialize hh penc 1 g ⟨o, HeapObj.empty⟩ =
      some (.ok (writeVarNat 1 ++ (writeVarNat o.ordinal ++
        (writeByteArray (hh (writeVarNat 0)) ++
          (writeByteArray (writeVarNat 0) ++ []))))) ∧
    deserialize pdec ⟨[], []⟩ (writeVarNat 1 ++ (writeVarNat o.ordinal ++
        (writeByteArray (hh (writeVarNat 0)) ++
          (writeByteArray (writeVarNat 0) ++ [])))) =
      .ok (o.emptySet, ⟨[], [(hh (writeVarNat 0), DVal.empty)]⟩, []) := by
  constructor
  · rw [serialize, if_pos (show shouldSerializeNestedSet = true from rfl)]
    have htopo : getTopologicallySortedChildren g 1
        (⟨o, HeapObj.empty⟩ : NestedSet).children = some [HeapObj.empty] := by
      rw [getTopologicallySortedChildren, dfsFuel_succ, if_neg (by simp)]
      rfl
    simp only [htopo]
    have hframes : serializeFrames hh penc g [HeapObj.empty] [] =
        .ok ((writeByteArray (hh (writeVarNat 0)) ++
          writeByteArray (writeVarNat 0)) ++ []) := rfl
    simp only [hframes]
    simp [List.append_assoc]
  · rw [deserialize, if_pos (show shouldSerializeNestedSet = true from rfl)]
    rw [readInt32_writeVarNat (show 1 < 2 ^ 31 by norm_num)]
    simp only
    rw [if_neg (show ¬ (((1 : Nat) : Int) < 1) by norm_num)]
    rw [deserializeOrder, readInt32_writeVarNat (order_ordinal_lt o)]
    simp only
    rw [if_neg (show ¬ ((o.ordinal : Int) < 0) by omega)]
    rw [Int.toNat_natCast, order_ofOrdinal_ordinal]
    simp only
    have h1 : (((1 : Nat) : Int)).toNat = 1 := rfl
    rw [h1, deserializeFrames_succ]
    rw [deserializeOne_frame pdec ⟨[], []⟩ (hh (writeVarNat 0)) (writeVarNat 0)
      [] hlen (by decide)]
    rw [show readInt32 (writeVarNat 0) = some (0, []) from by decide]
    simp only
    rw [show buildChildValue pdec ⟨[], []⟩ 0 [] =
      .ok (DVal.empty, (⟨[], []⟩ : DState).heap) from rfl]
    simp only
    rw [show internResult ⟨[], []⟩ (hh (writeVarNat 0)) DVal.empty [] =
      (DVal.empty, ⟨[], [(hh (writeVarNat 0), DVal.empty)]⟩) from rfl]
    rw [deserializeFrames_zero]
    dsimp only
    rw [show createNestedSet o DVal.empty = o.emptySet from by
      rw [createNestedSet, if_pos rfl]]

theorem c9_empty_roundtrip_witness :
    (hashPair (writeVarNat 0)).length < 2 ^ 31 ∧
    serialize hashPair pencV 1 [] ⟨Order.link, HeapObj.empty⟩ =
      some (.ok (writeVarNat 1 ++ (writeVarNat Order.link.ordinal ++
        (writeByteArray (hashPair (writeVarNat 0)) ++
          (writeByteArray (writeVarNat 0) ++ []))))) :=
  ⟨by decide, (c9_empty_roundtrip hashPair pencV pdecV [] Order.link
    (by decide)).1⟩

/-! ## Basic lemmas for the equivalence checker and lookup tables -/

theorem refsOf_nil : refsOf [] = [] := rfl

theorem refsOf_cons_payload (p : Nat) (es : List Entry) :
    refsOf (Entry.payload p :: es) = refsOf es := rfl

theorem refsOf_cons_ref (j : Nat) (es : List Entry) :
    refsOf (Entry.ref j :: es) = j :: refsOf es := rfl

theorem alookup_mem {α β : Type} [DecidableEq α] :
    ∀ (l : List (α × β)) k v, alookup k l = some v → (k, v) ∈ l := by
  intro l
  induction l with
  | nil => intro k v h; cases h
  | cons kv l ih =>
    intro k v h
    obtain ⟨k2, v2⟩ := kv
    rw [alookup] at h
    by_cases hk : k2 = k
    · rw [if_pos hk] at h
      injection h with h
      subst h
      subst hk
      simp
    · rw [if_neg hk] at h
      exact List.mem_cons_of_mem _ (ih k v h)

theorem entryEquiv_zero (g : Graph) (heap : List (List DVal)) (e : Entry)
    (v : DVal) : entryEquiv g heap 0 e v = false := rfl

theorem entryEquiv_succ (g : Graph) (heap : List (List DVal)) (f : Nat)
    (e : Entry) (v : DVal) :
    entryEquiv g heap (f+1) e v =
      match e, v with
      | .payload p, .payload q => p == q
      | .ref i, .arr a =>
        match g.get? i, heap.get? a with
        | some es, some ds =>
          (es.length == ds.length) &&
          ((es.zip ds).all (fun x => entryEquiv g heap f x.1 x.2))
        | _, _ => false
      | _, _ => false := by
  cases e <;> cases v <;> rfl

theorem entryEquiv_mono {g : Graph} {heap : List (List DVal)} :
    ∀ f f2 e v, f ≤ f2 → entryEquiv g heap f e v = true →
      entryEquiv g heap f2 e v = true := by
  intro f
  induction f with
  | zero =>
    intro f2 e v _ h
    rw [entryEquiv_zero] at h
    cases h
  | succ f ih =>
    intro f2 e v hle h
    obtain ⟨f2x, rfl⟩ : ∃ f2x, f2 = f2x + 1 := ⟨f2 - 1, by omega⟩
    rw [entryEquiv_succ] at h ⊢
    cases e with
    | payload p => cases v <;> simpa using h
    | ref i =>
      cases v with
      | arr a =>
        dsimp only at h ⊢
        cases hg : g.get? i with
        | none => rw [hg] at h; simp at h
        | some es =>
          rw [hg] at h
          cases hp : heap.get? a with
          | none => rw [hp] at h; simp at h
          | some ds =>
            rw [hp] at h
            dsimp only at h ⊢
            rw [Bool.and_eq_true] at h ⊢
            refine ⟨h.1, ?_⟩
            rw [List.all_eq_true] at h ⊢
            intro x hx
            exact ih f2x x.1 x.2 (by omega) (h.2 x hx)
      | empty => cases h
      | payload q => cases h

theorem entryEquiv_heap_append {g : Graph} {heap ext : List (List DVal)} :
    ∀ f e v, entryEquiv g heap f e v = true →
      entryEquiv g (heap ++ ext) f e v = true := by
  intro f
  induction f with
  | zero => intro e v h; rw [entryEquiv_zero] at h; cases h
  | succ f ih =>
    intro e v h
    rw [entryEquiv_succ] at h ⊢
    cases e with
    | payload p => cases v <;> simpa using h
    | ref i =>
      cases v with
      | arr a =>
        dsimp only at h ⊢
        cases hg : g.get? i with
        | none => rw [hg] at h; simp at h
        | some es =>
          rw [hg] at h
          cases hp : heap.get? a with
          | none => rw [hp] at h; simp at h
          | some ds =>
            rw [hp] at h
            have hlt : a < heap.length := by
              rcases List.get?_eq_some.mp hp with ⟨hlt, _⟩
              exact hlt
            rw [List.get?_append hlt, hp]
            dsimp only at h ⊢
            rw [Bool.and_eq_true] at h ⊢
            refine ⟨h.1, ?_⟩
            rw [List.all_eq_true] at h ⊢
            intro x hx
            exact ih x.1 x.2 (h.2 x hx)
      | empty => cases h
      | payload q => cases h

theorem objEquiv_node (g : Graph) (heap : List (List DVal)) (f : Nat) (i : Nat)
    (v : DVal) : objEquiv g heap f (HeapObj.node i) v = entryEquiv g heap f (.ref i) v :=
  rfl

theorem objEquiv_mono {g : Graph} {heap : List (List DVal)} {f f2 : Nat}
    {c : HeapObj} {v : DVal} (hle : f ≤ f2) (h : objEquiv g heap f c v = true) :
    objEquiv g heap f2 c v = true := by
  cases c with
  | empty => cases v <;> simpa using h
  | payload p => cases v <;> simpa [objEquiv] using h
  | node i => exact entryEquiv_mono f f2 _ _ hle h

theorem objEquiv_heap_append {g : Graph} {heap ext : List (List DVal)} {f : Nat}
    {c : HeapObj} {v : DVal} (h : objEquiv g heap f c v = true) :
    objEquiv g (heap ++ ext) f c v = true := by
  cases c with
  | empty => cases v <;> simpa using h
  | payload p => cases v <;> simpa [objEquiv] using h
  | node i => exact entryEquiv_heap_append f _ _ h

theorem objEquivP_heap_append {g : Graph} {heap ext : List (List DVal)}
    {c : HeapObj} {v : DVal} (h : ObjEquivP g heap c v) :
    ObjEquivP g (heap ++ ext) c v := by
  obtain ⟨f, hf⟩ := h
  exact ⟨f, objEquiv_heap_append hf⟩

theorem exists_uniform {Q : Nat → Nat → Prop}
    (hmono : ∀ k f f2, f ≤ f2 → Q k f → Q k f2) :
    ∀ n, (∀ k, k < n → ∃ f, Q k f) → ∃ F, ∀ k, k < n → Q k F := by
  intro n
  induction n with
  | zero => intro _; exact ⟨0, fun k hk => absurd hk (by omega)⟩
  | succ n ih =>
    intro h
    obtain ⟨F1, hF1⟩ := ih (fun k hk => h k (by omega))
    obtain ⟨f2, hf2⟩ := h n (by omega)
    refine ⟨max F1 f2, ?_⟩
    intro k hk
    by_cases hkn : k < n
    · exact hmono k F1 _ (le_max_left _ _) (hF1 k hkn)
    · have hkeq : k = n := by omega
      subst hkeq
      exact hmono k f2 _ (le_max_right _ _) hf2

/-! ## The closed-form body is what the writer emits -/

theorem entsBytesWith_congr {penc : Nat → List Nat} {d1 d2 : Nat → List Nat} :
    ∀ es : List Entry, (∀ j ∈ refsOf es, d1 j = d2 j) →
      entsBytesWith penc d1 es = entsBytesWith penc d2 es := by
  intro es
  induction es with
  | nil => intro _; rfl
  | cons e es ih =>
    intro h
    cases e with
    | payload p =>
      rw [entsBytesWith, entsBytesWith, ih (fun j hj => h j hj)]
    | ref j =>
      rw [entsBytesWith, entsBytesWith,
        ih (fun j2 hj2 => h j2 (by rw [refsOf_cons_ref]; simp [hj2])),
        h j (by rw [refsOf_cons_ref]; simp)]

theorem bodyOfFuel_succ (g : Graph) (hh : List Nat → List Nat)
    (penc : Nat → List Nat) (f id : Nat) :
    bodyOfFuel g hh penc (f+1) id =
      writeVarNat (nodeEntries g id).length ++
        entsBytesWith penc (fun j => hh (bodyOfFuel g hh penc f j))
          (nodeEntries g id) := rfl

theorem refs_lt {g : Graph} (hA : Acyclic g) (id : Nat) :
    ∀ j ∈ refsOf (nodeEntries g id), j < id := by
  intro j hj
  by_cases hlen : id < g.length
  · exact hA id hlen j hj
  · rw [nodeEntries, List.getD_eq_default _ _ (by omega)] at hj
    simp [refsOf] at hj

theorem bodyOfFuel_congr {g : Graph} {hh : List Nat → List Nat}
    {penc : Nat → List Nat} (hA : Acyclic g) :
    ∀ id f1 f2, id < f1 → id < f2 →
      bodyOfFuel g hh penc f1 id = bodyOfFuel g hh penc f2 id := by
  intro id
  induction id using Nat.strong_induction_on with
  | _ id IH =>
    intro f1 f2 h1 h2
    obtain ⟨f1x, rfl⟩ : ∃ f1x, f1 = f1x + 1 := ⟨f1 - 1, by omega⟩
    obtain ⟨f2x, rfl⟩ : ∃ f2x, f2 = f2x + 1 := ⟨f2 - 1, by omega⟩
    rw [bodyOfFuel_succ, bodyOfFuel_succ]
    congr 1
    refine entsBytesWith_congr _ ?_
    intro j hj
    have hjid : j < id := refs_lt hA id j hj
    rw [IH j hjid f1x f2x (by omega) (by omega)]

theorem bodyOfN_eq {g : Graph} {hh : List Nat → List Nat}
    {penc : Nat → List Nat} (hA : Acyclic g) (id : Nat) :
    bodyOfN g hh penc id =
      writeVarNat (nodeEntries g id).length ++
        entsBytesWith penc (digestOfN g hh penc) (nodeEntries g id) := by
  rw [bodyOfN, bodyOfFuel_succ]
  congr 1
  refine entsBytesWith_congr _ ?_
  intro j hj
  have hjid : j < id := refs_lt hA id j hj
  rw [digestOfN, bodyOfN, bodyOfFuel_congr hA j id (j+1) hjid (by omega)]

/-! ## Writer correctness: emitted frames equal the closed form -/

theorem serializeEntries_eq {penc : Nat → List Nat}
    {m : List (HeapObj × List Nat)} {dfn : Nat → List Nat} :
    ∀ es : List Entry,
      (∀ j ∈ refsOf es, alookup (HeapObj.node j) m = some (dfn j)) →
      serializeEntries penc m es = .ok (entsBytesWith penc dfn es) := by
  intro es
  induction es with
  | nil => intro _; rfl
  | cons e es ih =>
    intro h
    cases e with
    | payload p =>
      simp only [serializeEntries, ih (fun j hj => h j hj), entsBytesWith]
    | ref j =>
      have hj := h j (by rw [refsOf_cons_ref]; simp)
      simp only [serializeEntries, hj,
        ih (fun j2 hj2 => h j2 (by rw [refsOf_cons_ref]; simp [hj2])),
        entsBytesWith]

theorem serializeBody_eq {g : Graph} {hh : List Nat → List Nat}
    {penc : Nat → List Nat} {m : List (HeapObj × List Nat)} (hA : Acyclic g)
    {c : HeapObj}
    (h : ∀ id, c = HeapObj.node id → ∀ j ∈ refsOf (nodeEntries g id),
      alookup (HeapObj.node j) m = some (digestOfN g hh penc j)) :
    serializeBody penc g m c = .ok (bodyObj g hh penc c) := by
  cases c with
  | empty => rfl
  | payload p => rfl
  | node id =>
    have hbody : bodyObj g hh penc (HeapObj.node id) =
        writeVarNat (nodeEntries g id).length ++
          entsBytesWith penc (digestOfN g hh penc) (nodeEntries g id) :=
      bodyOfN_eq hA id
    rw [hbody]
    simp only [serializeBody, serializeEntries_eq _ (h id rfl)]

theorem serializeFrames_eq {g : Graph} {hh : List Nat → List Nat}
    {penc : Nat → List Nat} (hA : Acyclic g) :
    ∀ (todo : List HeapObj) (m : List (HeapObj × List Nat)),
      (∀ k, (hk : k < todo.length) → ∀ id, todo[k] = HeapObj.node id →
        ∀ j ∈ refsOf (nodeEntries g id),
          alookup (HeapObj.node j) m = some (digestOfN g hh penc j) ∨
          ∃ k2, ∃ hk2 : k2 < todo.length, k2 < k ∧ todo[k2] = HeapObj.node j) →
      serializeFrames hh penc g todo m = .ok (framesBytes g hh penc todo) := by
  intro todo
  induction todo with
  | nil => intro m _; rfl
  | cons c cs ih =>
    intro m h
    have hc : ∀ id, c = HeapObj.node id → ∀ j ∈ refsOf (nodeEntries g id),
        alookup (HeapObj.node j) m = some (digestOfN g hh penc j) := by
      intro id hid j hj
      rcases h 0 (by simp) id (by simpa using hid) j hj with h1 | ⟨k2, hk2, hk20, _⟩
      · exact h1
      · omega
    have hbody := serializeBody_eq hA hc
    have hstep : ∀ k, (hk : k < cs.length) → ∀ id, cs[k] = HeapObj.node id →
        ∀ j ∈ refsOf (nodeEntries g id),
          alookup (HeapObj.node j) ((c, digestObj g hh penc c) :: m) =
            some (digestOfN g hh penc j) ∨
          ∃ k2, ∃ hk2 : k2 < cs.length, k2 < k ∧ cs[k2] = HeapObj.node j := by
      intro k hk id hid j hj
      by_cases hcj : c = HeapObj.node j
      · left
        rw [alookup, if_pos hcj, hcj]
        rfl
      · rcases h (k+1) (by simpa using Nat.succ_lt_succ hk) id
          (by simpa using hid) j hj with h1 | ⟨k2, hk2, hk20, hget⟩
        · left
          rw [alookup, if_neg hcj]
          exact h1
        · match k2, hk2, hk20, hget with
          | 0, _, _, hget =>
            have hc0 : c = HeapObj.node j := by simpa using hget
            exact absurd hc0 hcj
          | k2+1, hk2, hk20, hget =>
            right
            exact ⟨k2, by simpa using Nat.lt_of_succ_lt_succ hk2, by omega,
              by simpa using hget⟩
    have hih := ih ((c, digestObj g hh penc c) :: m) hstep
    simp only [digestObj] at hih
    simp only [serializeFrames, serializeOneNestedSet, hbody, hih]
    simp only [framesBytes, digestObj, List.append_assoc]

/-- Serialization of a well-formed acyclic nested set succeeds and emits the
closed-form envelope. -/
theorem serialize_ok {g : Graph} {hh : List Nat → List Nat}
    {penc : Nat → List Nat} (ns : NestedSet) (hA : Acyclic g)
    (hwf : WfRoot g ns.children) :
    ∃ topo, getTopologicallySortedChildren g (g.length + 1) ns.children =
        some topo ∧
      topo.Nodup ∧ (∀ x, x ∈ topo ↔ ReachObj g ns.children x) ∧
      TopoOrdered g topo ∧ (∃ t, topo = t ++ [ns.children]) ∧
      serialize hh penc (g.length + 1) g ns =
        some (.ok (writeVarNat topo.length ++ (writeVarNat ns.order.ordinal ++
          framesBytes g hh penc topo))) := by
  obtain ⟨topo, htopo⟩ := topo_success hA hwf
  have htopo2 : dfsFuel g (g.length + 1) [] ns.children = some topo := htopo
  have hord : TopoOrdered g topo := dfs_ordered _ _ _ _ htopo2 topoOrdered_nil
  refine ⟨topo, htopo, dfs_nodup _ _ _ _ htopo2 List.nodup_nil, ?_, hord,
    dfs_last hA hwf htopo2, ?_⟩
  · intro x
    constructor
    · intro hx
      rcases dfs_sound _ _ _ _ htopo2 x hx with hmem | h
      · simp at hmem
      · exact h
    · intro hx
      exact (dfs_closed _ _ _ _ htopo2 (fun id hid => by simp at hid)).2 x hx
  · rw [serialize, if_pos (show shouldSerializeNestedSet = true from rfl)]
    simp only [htopo]
    have hstep : ∀ k, (hk : k < topo.length) → ∀ id, topo[k] = HeapObj.node id →
        ∀ j ∈ refsOf (nodeEntries g id),
          alookup (HeapObj.node j) ([] : List (HeapObj × List Nat)) =
            some (digestOfN g hh penc j) ∨
          ∃ k2, ∃ hk2 : k2 < topo.length, k2 < k ∧ topo[k2] = HeapObj.node j := by
      intro k hk id hid j hj
      right
      exact hord k hk id hid j hj
    have hframes := serializeFrames_eq hA topo [] hstep
    simp only [hframes]
    rw [List.append_assoc]

/-! ## C8: determinism and digest-over-body-only -/

theorem reachObj_wf {g : Graph} (hA : Acyclic g) {root x : HeapObj}
    (hwf : WfRoot g root) (h : ReachObj g root x) : WfRoot g x := by
  cases root with
  | node r =>
    obtain ⟨j, rfl, hr⟩ := h
    exact lt_of_le_of_lt (reaches_le hA hr hwf) hwf
  | empty => cases h; exact trivial
  | payload p => cases h; exact trivial

theorem reachObj_payload {g : Graph} {root x : HeapObj} (h : ReachObj g root x)
    {p : Nat} (hx : x = HeapObj.payload p) : root = HeapObj.payload p := by
  cases root with
  | node r =>
    obtain ⟨j, rfl, _⟩ := h
    cases hx
  | empty => cases h; cases hx
  | payload q => cases h; exact hx

theorem parseFrames_framesBytes {g : Graph} {hh : List Nat → List Nat}
    {penc : Nat → List Nat} :
    ∀ (topo : List HeapObj) (rest : List Nat),
      (∀ c ∈ topo, (digestObj g hh penc c).length < 2 ^ 31 ∧
        (bodyObj g hh penc c).length < 2 ^ 31) →
      parseFrames topo.length (framesBytes g hh penc topo ++ rest) =
        some (topo.map (fun c => (digestObj g hh penc c, bodyObj g hh penc c)),
          rest) := by
  intro topo
  induction topo with
  | nil => intro rest _; rfl
  | cons c cs ih =>
    intro rest h
    have hc := h c (by simp)
    rw [List.length_cons]
    have hbytes : framesBytes g hh penc (c :: cs) ++ rest =
        writeByteArray (digestObj g hh penc c) ++
          (writeByteArray (bodyObj g hh penc c) ++
            (framesBytes g hh penc cs ++ rest)) := by
      rw [framesBytes]
      simp [List.append_assoc]
    rw [hbytes]
    simp only [parseFrames, readBytes_writeByteArray hc.1,
      readBytes_writeByteArray hc.2,
      ih rest (fun c2 hc2 => h c2 (by simp [hc2])), List.map_cons]

/-- C8: serialization is a deterministic function of the nested set (two
invocations produce identical byte streams), and every frame's digest field is
the hash of exactly that frame's body field — the digest header and framing
are not hash input. -/
theorem c8_digest_determinism (g : Graph) (ns : NestedSet)
    (hh : List Nat → List Nat) (penc : Nat → List Nat)
    (hA : Acyclic g) (hwf : WfRoot g ns.children)
    (hdlen : ∀ b, (hh b).length < 2 ^ 31)
    (hblen : ∀ id, id < g.length → (bodyOfN g hh penc id).length < 2 ^ 31)
    (hrootlen : ∀ p, ns.children = HeapObj.payload p →
      (penc p).length + 1 < 2 ^ 31) :
    (∀ out1 out2, serialize hh penc (g.length + 1) g ns = out1 →
      serialize hh penc (g.length + 1) g ns = out2 → out1 = out2) ∧
    ∃ topo,
      serialize hh penc (g.length + 1) g ns =
        some (.ok (writeVarNat topo.length ++ (writeVarNat ns.order.ordinal ++
          framesBytes g hh penc topo))) ∧
      parseFrames topo.length (framesBytes g hh penc topo ++ []) =
        some (topo.map (fun c => (digestObj g hh penc c, bodyObj g hh penc c)),
          []) ∧
      ∀ db ∈ topo.map (fun c => (digestObj g hh penc c, bodyObj g hh penc c)),
        db.1 = hh db.2 := by
  refine ⟨fun out1 out2 h1 h2 => by rw [← h1, ← h2], ?_⟩
  obtain ⟨topo, htopo, hnd, hmem, hord, hlast, hser⟩ := serialize_ok ns hA hwf
  refine ⟨topo, hser, ?_, ?_⟩
  · refine parseFrames_framesBytes topo [] ?_
    intro c hc
    have hreach := (hmem c).mp hc
    have hcwf : WfRoot g c := reachObj_wf hA hwf hreach
    refine ⟨hdlen _, ?_⟩
    cases c with
    | empty => norm_num [bodyObj, writeVarNat, writeVarNatAux]
    | payload p =>
      have hroot : ns.children = HeapObj.payload p := reachObj_payload hreach rfl
      have := hrootlen p hroot
      simp only [bodyObj, writeVarNat, writeVarNatAux, List.length_append]
      norm_num
      omega
    | node id => exact hblen id hcwf
  · intro db hdb
    rw [List.mem_map] at hdb
    obtain ⟨c, _, rfl⟩ := hdb
    rfl

theorem c8_digest_determinism_witness :
    Acyclic wG ∧ WfRoot wG (HeapObj.node 1) ∧
    ((∀ out1 out2,
        serialize hashPair pencV (wG.length + 1) wG ⟨Order.stable, HeapObj.node 1⟩ = out1 →
        serialize hashPair pencV (wG.length + 1) wG ⟨Order.stable, HeapObj.node 1⟩ = out2 →
        out1 = out2) ∧
      ∃ topo,
        serialize hashPair pencV (wG.length + 1) wG ⟨Order.stable, HeapObj.node 1⟩ =
          some (.ok (writeVarNat topo.length ++
            (writeVarNat (Order.stable).ordinal ++ framesBytes wG hashPair pencV topo))) ∧
        parseFrames topo.length (framesBytes wG hashPair pencV topo ++ []) =
          some (topo.map (fun c =>
            (digestObj wG hashPair pencV c, bodyObj wG hashPair pencV c)), []) ∧
        ∀ db ∈ topo.map (fun c =>
            (digestObj wG hashPair pencV c, bodyObj wG hashPair pencV c)),
          db.1 = hashPair db.2) :=
  ⟨by decide, by decide,
    c8_digest_determinism wG ⟨Order.stable, HeapObj.node 1⟩ hashPair pencV
      (by decide) (by decide)
      (fun b => by norm_num [hashPair])
      (by decide)
      (fun p hp => by cases hp)⟩

/-! ## Equal bodies force aligned structure -/

theorem writeVarNat_zero : writeVarNat 0 = [0] := rfl

theorem writeVarNat_one : writeVarNat 1 = [1] := rfl

theorem writeVarNat_head_ge_two {n : Nat} (hn : 2 ≤ n) :
    ∃ b bs, writeVarNat n = b :: bs ∧ 2 ≤ b := by
  obtain ⟨m, rfl⟩ : ∃ m, n = m + 2 := ⟨n - 2, by omega⟩
  rw [writeVarNat]
  by_cases h : m + 2 < 128
  · exact ⟨m + 2, [], by rw [writeVarNatAux, if_pos h], by omega⟩
  · refine ⟨(m + 2) % 128 + 128, _, by rw [writeVarNatAux, if_neg h], by omega⟩

theorem entsBytes_cons_payload (penc : Nat → List Nat) (dfn : Nat → List Nat)
    (p : Nat) (es : List Entry) (r : List Nat) :
    entsBytesWith penc dfn (Entry.payload p :: es) ++ r =
      0 :: (penc p ++ (entsBytesWith penc dfn es ++ r)) := by
  rw [entsBytesWith]
  simp [writeBool, List.append_assoc]

theorem entsBytes_cons_ref (penc : Nat → List Nat) (dfn : Nat → List Nat)
    (j : Nat) (es : List Entry) (r : List Nat) :
    entsBytesWith penc dfn (Entry.ref j :: es) ++ r =
      1 :: (writeByteArray (dfn j) ++ (entsBytesWith penc dfn es ++ r)) := by
  rw [entsBytesWith]
  simp [writeBool, List.append_assoc]

theorem entsBytes_align {g : Graph} {hh : List Nat → List Nat}
    {penc : Nat → List Nat} {pdec : PDec}
    (hdlen : ∀ b, (hh b).length < 2 ^ 31) :
    ∀ (es1 es2 : List Entry) (rest1 rest2 : List Nat),
      (∀ p, Entry.payload p ∈ es1 → ∀ r, pdec (penc p ++ r) = some (p, r)) →
      (∀ p, Entry.payload p ∈ es2 → ∀ r, pdec (penc p ++ r) = some (p, r)) →
      es1.length = es2.length →
      entsBytesWith penc (digestOfN g hh penc) es1 ++ rest1 =
        entsBytesWith penc (digestOfN g hh penc) es2 ++ rest2 →
      List.Forall₂ (EntryAligned g hh penc) es1 es2 ∧ rest1 = rest2 := by
  intro es1
  induction es1 with
  | nil =>
    intro es2 rest1 rest2 _ _ hlen heq
    cases es2 with
    | nil =>
      simp only [entsBytesWith] at heq
      refine ⟨List.Forall₂.nil, ?_⟩
      simpa using heq
    | cons e2 es2 => simp at hlen
  | cons e1 es1 ih =>
    intro es2 rest1 rest2 hp1 hp2 hlen heq
    cases es2 with
    | nil => simp at hlen
    | cons e2 es2 =>
      have hlen2 : es1.length = es2.length := by simpa using hlen
      cases e1 with
      | payload p1 =>
        cases e2 with
        | payload p2 =>
          rw [entsBytes_cons_payload, entsBytes_cons_payload] at heq
          injection heq with _ heq
          have hd1 := hp1 p1 (by simp) (entsBytesWith penc (digestOfN g hh penc) es1 ++ rest1)
          have hd2 := hp2 p2 (by simp) (entsBytesWith penc (digestOfN g hh penc) es2 ++ rest2)
          rw [heq, hd2] at hd1
          injection hd1 with hd1
          injection hd1 with hp hrest
          subst hp
          obtain ⟨hf, hr⟩ := ih es2 rest1 rest2
            (fun p hp r => hp1 p (by simp [hp]) r)
            (fun p hp r => hp2 p (by simp [hp]) r) hlen2 hrest.symm
          exact ⟨List.Forall₂.cons (Or.inl ⟨_, rfl, rfl⟩) hf, hr⟩
        | ref j2 =>
          rw [entsBytes_cons_payload, entsBytes_cons_ref] at heq
          injection heq with h0 _
          cases h0
      | ref j1 =>
        cases e2 with
        | payload p2 =>
          rw [entsBytes_cons_ref, entsBytes_cons_payload] at heq
          injection heq with h0 _
          cases h0
        | ref j2 =>
          rw [entsBytes_cons_ref, entsBytes_cons_ref] at heq
          injection heq with _ heq
          have hd1 : readBytes (writeByteArray (digestOfN g hh penc j1) ++
              (entsBytesWith penc (digestOfN g hh penc) es1 ++ rest1)) =
              some (digestOfN g hh penc j1,
                entsBytesWith penc (digestOfN g hh penc) es1 ++ rest1) :=
            readBytes_writeByteArray (hdlen _) _
          have hd2 : readBytes (writeByteArray (digestOfN g hh penc j2) ++
              (entsBytesWith penc (digestOfN g hh penc) es2 ++ rest2)) =
              some (digestOfN g hh penc j2,
                entsBytesWith penc (digestOfN g hh penc) es2 ++ rest2) :=
            readBytes_writeByteArray (hdlen _) _
          rw [heq, hd2] at hd1
          injection hd1 with hd1
          injection hd1 with hdig hrest
          obtain ⟨hf, hr⟩ := ih es2 rest1 rest2
            (fun p hp r => hp1 p (by simp [hp]) r)
            (fun p hp r => hp2 p (by simp [hp]) r) hlen2 hrest.symm
          exact ⟨List.Forall₂.cons (Or.inr ⟨j1, j2, rfl, rfl, hdig.symm⟩) hf, hr⟩

/-- Equal node bodies force equal entry counts and pointwise alignment. -/
theorem body_align {g : Graph} {hh : List Nat → List Nat}
    {penc : Nat → List Nat} {pdec : PDec} (hA : Acyclic g)
    (hdlen : ∀ b, (hh b).length < 2 ^ 31)
    (harity : ∀ i, i < g.length → (nodeEntries g i).length < 2 ^ 31)
    (hpg : ∀ p, (∃ es ∈ g, Entry.payload p ∈ es) →
      ∀ r, pdec (penc p ++ r) = some (p, r))
    {i1 i2 : Nat} (h1 : i1 < g.length) (h2 : i2 < g.length)
    (heq : bodyOfN g hh penc i1 = bodyOfN g hh penc i2) :
    List.Forall₂ (EntryAligned g hh penc) (nodeEntries g i1) (nodeEntries g i2) := by
  have hb1 : bodyOfN g hh penc i1 =
      writeVarNat (nodeEntries g i1).length ++
        entsBytesWith penc (digestOfN g hh penc) (nodeEntries g i1) :=
    bodyOfN_eq hA i1
  have hb2 : bodyOfN g hh penc i2 =
      writeVarNat (nodeEntries g i2).length ++
        entsBytesWith penc (digestOfN g hh penc) (nodeEntries g i2) :=
    bodyOfN_eq hA i2
  rw [hb1, hb2] at heq
  have hv1 : readRawVarint (writeVarNat (nodeEntries g i1).length ++
      entsBytesWith penc (digestOfN g hh penc) (nodeEntries g i1)) =
      some ((nodeEntries g i1).length,
        entsBytesWith penc (digestOfN g hh penc) (nodeEntries g i1)) :=
    readRawVarint_writeVarNat (harity i1 h1) _
  have hv2 : readRawVarint (writeVarNat (nodeEntries g i2).length ++
      entsBytesWith penc (digestOfN g hh penc) (nodeEntries g i2)) =
      some ((nodeEntries g i2).length,
        entsBytesWith penc (digestOfN g hh penc) (nodeEntries g i2)) :=
    readRawVarint_writeVarNat (harity i2 h2) _
  rw [heq, hv2] at hv1
  injection hv1 with hv1
  injection hv1 with hlen hents
  have hmem : ∀ (i : Nat), i < g.length → ∀ p, Entry.payload p ∈ nodeEntries g i →
      ∀ r, pdec (penc p ++ r) = some (p, r) := by
    intro i hi p hp r
    refine hpg p ⟨nodeEntries g i, ?_, hp⟩ r
    rw [nodeEntries, List.getD_eq_get?, List.get?_eq_get hi]
    simpa using List.get_mem g i hi
  have halign : List.Forall₂ (EntryAligned g hh penc)
      (nodeEntries g i1) (nodeEntries g i2) ∧ ([] : List Nat) = [] :=
    entsBytes_align hdlen (nodeEntries g i1) (nodeEntries g i2)
      [] [] (hmem i1 h1) (hmem i2 h2) hlen.symm (by simp [hents])
  exact halign.1

/-! ## Transport of structural equivalence across equal bodies -/

theorem get?_nodeEntries {g : Graph} {i : Nat} (hi : i < g.length) :
    g.get? i = some (nodeEntries g i) := by
  rw [nodeEntries, List.getD_eq_get?, List.get?_eq_get hi]
  rfl

theorem mem_refsOf {es : List Entry} {j : Nat} (h : Entry.ref j ∈ es) :
    j ∈ refsOf es := by
  rw [refsOf, List.mem_filterMap]
  exact ⟨Entry.ref j, h, rfl⟩

theorem all_zip_iff {α β : Type} {P : α × β → Bool} :
    ∀ {l1 : List α} {l2 : List β}, l1.length = l2.length →
      (((l1.zip l2).all P = true) ↔
        ∀ k, (h1 : k < l1.length) → (h2 : k < l2.length) →
          P (l1.get ⟨k, h1⟩, l2.get ⟨k, h2⟩) = true) := by
  intro l1
  induction l1 with
  | nil =>
    intro l2 hlen
    constructor
    · intro _ k h1 _
      simp at h1
    · intro _
      rfl
  | cons a l1 ih =>
    intro l2 hlen
    cases l2 with
    | nil => simp at hlen
    | cons b l2 =>
      have hlen2 : l1.length = l2.length := by simpa using hlen
      rw [List.zip_cons_cons, List.all_cons, Bool.and_eq_true, ih hlen2]
      constructor
      · intro ⟨hab, hrest⟩ k h1 h2
        match k with
        | 0 => exact hab
        | k+1 =>
          exact hrest k (by simpa using h1) (by simpa using h2)
      · intro h
        refine ⟨h 0 (by simp) (by simp), ?_⟩
        intro k h1 h2
        exact h (k+1) (by simpa using h1) (by simpa using h2)

theorem bodyObj_struct {g : Graph} {hh : List Nat → List Nat}
    {penc : Nat → List Nat} (hA : Acyclic g)
    (harity : ∀ i, i < g.length → 2 ≤ (nodeEntries g i).length)
    {c1 c2 : HeapObj} (h1 : WfRoot g c1) (h2 : WfRoot g c2)
    (heq : bodyObj g hh penc c1 = bodyObj g hh penc c2) :
    (c1 = HeapObj.empty ∧ c2 = HeapObj.empty) ∨
    (∃ p1 p2, c1 = HeapObj.payload p1 ∧ c2 = HeapObj.payload p2 ∧
      penc p1 = penc p2) ∨
    (∃ i1 i2, c1 = HeapObj.node i1 ∧ c2 = HeapObj.node i2 ∧
      bodyOfN g hh penc i1 = bodyOfN g hh penc i2) := by
  have hhead : ∀ c : HeapObj, WfRoot g c → ∃ b bs,
      bodyObj g hh penc c = b :: bs ∧
      ((c = HeapObj.empty → b = 0) ∧ (∀ p, c = HeapObj.payload p → b = 1) ∧
        (∀ i, c = HeapObj.node i → 2 ≤ b)) := by
    intro c hc
    cases c with
    | empty =>
      refine ⟨0, [], rfl, fun _ => rfl, ?_, ?_⟩
      · intro p hp; cases hp
      · intro i hi; cases hi
    | payload p =>
      refine ⟨1, penc p, rfl, ?_, fun q hq => rfl, ?_⟩
      · intro h; cases h
      · intro i hi; cases hi
    | node i =>
      obtain ⟨b, bs, hb, hb2⟩ := writeVarNat_head_ge_two (harity i hc)
      refine ⟨b, bs ++ entsBytesWith penc (digestOfN g hh penc) (nodeEntries g i),
        ?_, ?_, ?_, fun i2 hi2 => hb2⟩
      · rw [show bodyObj g hh penc (HeapObj.node i) = bodyOfN g hh penc i from rfl,
          bodyOfN_eq hA, hb]
        rfl
      · intro h; cases h
      · intro q hq; cases hq
  obtain ⟨b1, bs1, hb1, he1, hp1, hn1⟩ := hhead c1 h1
  obtain ⟨b2, bs2, hb2, he2, hp2, hn2⟩ := hhead c2 h2
  rw [hb1, hb2] at heq
  injection heq with hb12 hbs12
  cases c1 with
  | empty =>
    cases c2 with
    | empty => exact Or.inl ⟨rfl, rfl⟩
    | payload p2 =>
      have := he1 rfl
      have := hp2 p2 rfl
      omega
    | node i2 =>
      have := he1 rfl
      have := hn2 i2 rfl
      omega
  | payload p1 =>
    cases c2 with
    | empty =>
      have := hp1 p1 rfl
      have := he2 rfl
      omega
    | payload p2 =>
      refine Or.inr (Or.inl ⟨p1, p2, rfl, rfl, ?_⟩)
      have hx1 : bodyObj g hh penc (HeapObj.payload p1) = 1 :: penc p1 := rfl
      have hx2 : bodyObj g hh penc (HeapObj.payload p2) = 1 :: penc p2 := rfl
      rw [hx1] at hb1
      rw [hx2] at hb2
      injection hb1 with _ hbs1
      injection hb2 with _ hbs2
      rw [hbs1, hbs2]
      exact hbs12
    | node i2 =>
      have := hp1 p1 rfl
      have := hn2 i2 rfl
      omega
  | node i1 =>
    cases c2 with
    | empty =>
      have := hn1 i1 rfl
      have := he2 rfl
      omega
    | payload p2 =>
      have := hn1 i1 rfl
      have := hp2 p2 rfl
      omega
    | node i2 =>
      refine Or.inr (Or.inr ⟨i1, i2, rfl, rfl, ?_⟩)
      have hx1 : bodyObj g hh penc (HeapObj.node i1) = bodyOfN g hh penc i1 := rfl
      have hx2 : bodyObj g hh penc (HeapObj.node i2) = bodyOfN g hh penc i2 := rfl
      rw [← hx1, hb1, hb12, hbs12, ← hb2, hx2]

theorem entryEquiv_transport {g : Graph} {hh : List Nat → List Nat}
    {penc : Nat → List Nat} {pdec : PDec} (hA : Acyclic g)
    (hinj : ∀ b1 b2, hh b1 = hh b2 → b1 = b2)
    (hdlen : ∀ b, (hh b).length < 2 ^ 31)
    (harity : ∀ i, i < g.length → (nodeEntries g i).length < 2 ^ 31)
    (hpg : ∀ p, (∃ es ∈ g, Entry.payload p ∈ es) →
      ∀ r, pdec (penc p ++ r) = some (p, r)) :
    ∀ f (i1 i2 : Nat) (v : DVal) (heap : List (List DVal)),
      i1 < g.length → i2 < g.length →
      bodyOfN g hh penc i1 = bodyOfN g hh penc i2 →
      entryEquiv g heap f (.ref i1) v = true →
      entryEquiv g heap f (.ref i2) v = true := by
  intro f
  induction f with
  | zero =>
    intro i1 i2 v heap _ _ _ h
    rw [entryEquiv_zero] at h
    cases h
  | succ f ih =>
    intro i1 i2 v heap h1 h2 heq h
    rw [entryEquiv_succ] at h ⊢
    cases v with
    | empty => cases h
    | payload q => cases h
    | arr a =>
      dsimp only at h ⊢
      have halign := body_align hA hdlen harity hpg h1 h2 heq
      have hlen12 : (nodeEntries g i1).length = (nodeEntries g i2).length :=
        List.Forall₂.length_eq halign
      rw [get?_nodeEntries h1] at h
      rw [get?_nodeEntries h2]
      cases hp : heap.get? a with
      | none => rw [hp] at h; simp at h
      | some ds =>
        rw [hp] at h
        dsimp only at h ⊢
        rw [Bool.and_eq_true] at h ⊢
        obtain ⟨hlb, hall⟩ := h
        have hld : (nodeEntries g i1).length = ds.length := by
          simpa using hlb
        refine ⟨by simp [← hlen12, hld], ?_⟩
        rw [all_zip_iff (by omega)] at hall ⊢
        intro k hk2 hkd
        have hk1 : k < (nodeEntries g i1).length := by omega
        have hone := hall k hk1 hkd
        have hkalign := (List.forall₂_iff_get.mp halign).2 k hk1 hk2
        rcases hkalign with ⟨p, hp1, hp2⟩ | ⟨j1, j2, hj1, hj2, hdig⟩
        · rw [hp2]
          rw [hp1] at hone
          exact hone
        · rw [hj2]
          rw [hj1] at hone
          have hj1mem : j1 ∈ refsOf (nodeEntries g i1) :=
            mem_refsOf (hj1 ▸ List.get_mem _ k hk1)
          have hj2mem : j2 ∈ refsOf (nodeEntries g i2) :=
            mem_refsOf (hj2 ▸ List.get_mem _ k hk2)
          have hj1lt : j1 < g.length := lt_trans (hA i1 h1 j1 hj1mem) h1
          have hj2lt : j2 < g.length := lt_trans (hA i2 h2 j2 hj2mem) h2
          have hbody12 : bodyOfN g hh penc j1 = bodyOfN g hh penc j2 :=
            hinj _ _ hdig
          exact ih j1 j2 _ heap hj1lt hj2lt hbody12 hone

theorem objEquivP_transport {g : Graph} {hh : List Nat → List Nat}
    {penc : Nat → List Nat} {pdec : PDec} (hA : Acyclic g)
    (hinj : ∀ b1 b2, hh b1 = hh b2 → b1 = b2)
    (hdlen : ∀ b, (hh b).length < 2 ^ 31)
    (harity2 : ∀ i, i < g.length → 2 ≤ (nodeEntries g i).length)
    (harity : ∀ i, i < g.length → (nodeEntries g i).length < 2 ^ 31)
    (hpg : ∀ p, (∃ es ∈ g, Entry.payload p ∈ es) →
      ∀ r, pdec (penc p ++ r) = some (p, r))
    {c1 c2 : HeapObj} (hw1 : WfRoot g c1) (hw2 : WfRoot g c2)
    (hpay : ∀ p1 p2, c1 = HeapObj.payload p1 → c2 = HeapObj.payload p2 →
      penc p1 = penc p2 → p1 = p2)
    (hbody : bodyObj g hh penc c1 = bodyObj g hh penc c2)
    {heap : List (List DVal)} {v : DVal} (h : ObjEquivP g heap c1 v) :
    ObjEquivP g heap c2 v := by
  rcases bodyObj_struct hA harity2 hw1 hw2 hbody with
    ⟨rfl, rfl⟩ | ⟨p1, p2, rfl, rfl, hpe⟩ | ⟨i1, i2, rfl, rfl, hb⟩
  · exact h
  · rw [hpay p1 p2 rfl rfl hpe] at h
    exact h
  · obtain ⟨f, hf⟩ := h
    exact ⟨f, entryEquiv_transport hA hinj hdlen harity hpg f
      i1 i2 v heap hw1 hw2 hb hf⟩

/-! ## Reader: parsing one BRANCH body resolves entries from the shared map -/

theorem readChildEntries_ents {g : Graph} {hh : List Nat → List Nat}
    {penc : Nat → List Nat} {pdec : PDec}
    {interner : List (List Nat × DVal)}
    (hdlen : ∀ b, (hh b).length < 2 ^ 31) :
    ∀ (es : List Entry) (s : List Nat),
      (∀ j ∈ refsOf es, ∃ vj, alookup (digestOfN g hh penc j) interner = some vj) →
      (∀ p, Entry.payload p ∈ es → ∀ r, pdec (penc p ++ r) = some (p, r)) →
      readChildEntries pdec interner es.length
          (entsBytesWith penc (digestOfN g hh penc) es ++ s) =
        .ok (es.map (entryRead g hh penc interner), s) := by
  intro es
  induction es with
  | nil =>
    intro s _ _
    simp [entsBytesWith, readChildEntries]
  | cons e es ih =>
    intro s hlook hp
    cases e with
    | payload p =>
      rw [entsBytes_cons_payload, List.length_cons, readChildEntries]
      rw [readBool_zero]
      dsimp only
      rw [hp p (by simp) _]
      dsimp only
      rw [ih s (fun j hj => hlook j hj) (fun q hq r => hp q (by simp [hq]) r)]
      simp [entryRead]
    | ref j =>
      rw [entsBytes_cons_ref, List.length_cons, readChildEntries]
      rw [readBool_one]
      dsimp only
      rw [readBytes_writeByteArray
        (show (digestOfN g hh penc j).length < 2 ^ 31 from hdlen _)]
      dsimp only
      obtain ⟨vj, hvj⟩ := hlook j (by rw [refsOf_cons_ref]; simp)
      rw [hvj]
      dsimp only
      rw [ih s (fun j2 hj2 => hlook j2 (by rw [refsOf_cons_ref]; simp [hj2]))
        (fun q hq r => hp q (by simp [hq]) r)]
      simp [entryRead, hvj]

/-! ## Reader invariant: the two putIfAbsent outcomes -/

theorem readerInv_insert {g : Graph} {hh : List Nat → List Nat}
    {penc : Nat → List Nat} {done : List HeapObj} {st : DState} {c : HeapObj}
    {result : DVal} {ext : List (List DVal)}
    (hinv : ReaderInv g hh penc done st)
    (hlook : alookup (digestObj g hh penc c) st.interner = none)
    (hequiv : ObjEquivP g (st.heap ++ ext) c result)
    (harr : ∀ id, c = HeapObj.node id → ∃ a ds, result = DVal.arr a ∧
      (st.heap ++ ext).get? a = some ds ∧
      ds.length = (nodeEntries g id).length ∧
      ∀ k, (hk : k < (nodeEntries g id).length) →
        (∀ p, (nodeEntries g id).get ⟨k, hk⟩ = Entry.payload p →
          ds.get? k = some (DVal.payload p)) ∧
        (∀ j, (nodeEntries g id).get ⟨k, hk⟩ = Entry.ref j →
          ∃ vj, alookup (digestOfN g hh penc j) st.interner = some vj ∧
            ds.get? k = some vj)) :
    ReaderInv g hh penc (done ++ [c])
      ⟨st.heap ++ ext, (digestObj g hh penc c, result) :: st.interner⟩ := by
  obtain ⟨hI1, hI2, hI3⟩ := hinv
  refine ⟨?_, ?_, ?_⟩
  · intro c2 hc2
    rcases List.mem_append.mp hc2 with hc2 | hc2
    · obtain ⟨v, hv, hvq⟩ := hI1 c2 hc2
      exact ⟨v, alookup_insert_absent hlook hv, objEquivP_heap_append hvq⟩
    · have hc2c : c2 = c := by simpa using hc2
      subst hc2c
      refine ⟨result, ?_, hequiv⟩
      rw [alookup, if_pos rfl]
  · intro d v hdv
    rcases List.mem_cons.mp hdv with heq2 | hdv
    · have hd : d = digestObj g hh penc c := congrArg Prod.fst heq2
      exact ⟨c, by simp, hd⟩
    · obtain ⟨c2, hc2, hd⟩ := hI2 d v hdv
      exact ⟨c2, by simp [hc2], hd⟩
  · intro id hid
    rcases List.mem_append.mp hid with hid | hid
    · obtain ⟨a, ds, hbind, hget, hlen, hents⟩ := hI3 id hid
      have ha : a < st.heap.length := by
        rcases List.get?_eq_some.mp hget with ⟨ha, _⟩
        exact ha
      refine ⟨a, ds, alookup_insert_absent hlook hbind,
        by rw [List.get?_append ha]; exact hget, hlen, ?_⟩
      intro k hk
      refine ⟨(hents k hk).1, ?_⟩
      intro j hj
      have hds := (hents k hk).2 j hj
      have hk2 : k < ds.length := by omega
      obtain ⟨x, hx⟩ : ∃ x, ds.get? k = some x := ⟨ds.get ⟨k, hk2⟩, List.get?_eq_get hk2⟩
      rw [hx]
      rw [hx] at hds
      rw [alookup_insert_absent hlook hds.symm]
    · have hcid : c = HeapObj.node id := by symm; simpa using hid
      obtain ⟨a, ds, hres, hget, hlen, hents⟩ := harr id hcid
      refine ⟨a, ds, ?_, hget, hlen, ?_⟩
      · rw [show digestOfN g hh penc id = digestObj g hh penc c from by
          rw [hcid]; rfl]
        rw [alookup, if_pos rfl, hres]
      · intro k hk
        refine ⟨(hents k hk).1, ?_⟩
        intro j hj
        obtain ⟨vj, hvj, hdsk⟩ := (hents k hk).2 j hj
        rw [hdsk, alookup_insert_absent hlook hvj]

theorem readerInv_adopt {g : Graph} {hh : List Nat → List Nat}
    {penc : Nat → List Nat} {pdec : PDec}
    (hG : GoodGraph g)
    (hinj : ∀ b1 b2, hh b1 = hh b2 → b1 = b2)
    (hdlen : ∀ b, (hh b).length < 2 ^ 31)
    {root : HeapObj} (hwf : WfRoot g root)
    (hpdec : ∀ p, PayloadIn g root p → ∀ r, pdec (penc p ++ r) = some (p, r))
    {topo done todo : List HeapObj} {c : HeapObj}
    (htopoMem : ∀ x ∈ topo, ReachObj g root x)
    (hsplit : topo = done ++ c :: todo)
    {st : DState} (hinv : ReaderInv g hh penc done st) {old : DVal}
    (hlook : alookup (digestObj g hh penc c) st.interner = some old)
    (ext : List (List DVal)) :
    ReaderInv g hh penc (done ++ [c]) ⟨st.heap ++ ext, st.interner⟩ ∧
      ObjEquivP g (st.heap ++ ext) c old := by
  have hA : Acyclic g := hG.2.1
  have harity2 : ∀ i, i < g.length → 2 ≤ (nodeEntries g i).length :=
    fun i hi => (hG.2.2 i hi).1
  have harity : ∀ i, i < g.length → (nodeEntries g i).length < 2 ^ 31 :=
    fun i hi => (hG.2.2 i hi).2
  have hpg : ∀ p, (∃ es ∈ g, Entry.payload p ∈ es) →
      ∀ r, pdec (penc p ++ r) = some (p, r) :=
    fun p hp r => hpdec p (Or.inl hp) r
  obtain ⟨hI1, hI2, hI3⟩ := hinv
  have hcmem : c ∈ topo := by rw [hsplit]; simp
  have hcwf : WfRoot g c := reachObj_wf hA hwf (htopoMem c hcmem)
  obtain ⟨c2, hc2done, hdeq⟩ := hI2 _ _ (alookup_mem _ _ _ hlook)
  have hc2mem : c2 ∈ topo := by rw [hsplit]; simp [List.mem_append.mpr (Or.inl hc2done)]
  have hc2wf : WfRoot g c2 := reachObj_wf hA hwf (htopoMem c2 hc2mem)
  have hbodyeq : bodyObj g hh penc c2 = bodyObj g hh penc c := hinj _ _ hdeq.symm
  obtain ⟨v2, hv2, hv2q⟩ := hI1 c2 hc2done
  have hv2old : v2 = old := by
    rw [← hdeq, hlook] at hv2
    injection hv2 with hv2
    exact hv2.symm
  rw [hv2old] at hv2 hv2q
  have hequiv : ObjEquivP g st.heap c old := by
    rcases bodyObj_struct hA harity2 hc2wf hcwf hbodyeq with
      ⟨rfl, rfl⟩ | ⟨p1, p2, hcp1, hcp2, hpe⟩ | ⟨i1, i2, hci1, hci2, hb⟩
    · exact hv2q
    · have hr1 : root = HeapObj.payload p1 :=
        reachObj_payload (htopoMem c2 hc2mem) hcp1
      have hr2 : root = HeapObj.payload p2 :=
        reachObj_payload (htopoMem c hcmem) hcp2
      have hp12 : p1 = p2 := by
        rw [hr1] at hr2
        injection hr2
      rw [hcp2, ← hp12, ← hcp1]
      exact hv2q
    · rw [hci2]
      rw [hci1] at hv2q
      obtain ⟨f, hf⟩ := hv2q
      refine ⟨f, ?_⟩
      rw [objEquiv_node] at hf ⊢
      refine entryEquiv_transport hA hinj hdlen harity hpg f
        i1 i2 old st.heap ?_ ?_ hb hf
      · rw [hci1] at hc2wf; exact hc2wf
      · rw [hci2] at hcwf; exact hcwf
  refine ⟨⟨?_, ?_, ?_⟩, objEquivP_heap_append hequiv⟩
  · intro c3 hc3
    rcases List.mem_append.mp hc3 with hc3 | hc3
    · obtain ⟨v, hv, hvq⟩ := hI1 c3 hc3
      exact ⟨v, hv, objEquivP_heap_append hvq⟩
    · have hc3c : c3 = c := by simpa using hc3
      subst hc3c
      exact ⟨old, hlook, objEquivP_heap_append hequiv⟩
  · intro d v hdv
    obtain ⟨c3, hc3, hd⟩ := hI2 d v hdv
    exact ⟨c3, by simp [hc3], hd⟩
  · intro id hid
    rcases List.mem_append.mp hid with hid | hid
    · obtain ⟨a, ds, hbind, hget, hlen, hents⟩ := hI3 id hid
      have ha : a < st.heap.length := by
        rcases List.get?_eq_some.mp hget with ⟨ha, _⟩
        exact ha
      exact ⟨a, ds, hbind, by rw [List.get?_append ha]; exact hget, hlen, hents⟩
    · have hcid : c = HeapObj.node id := by symm; simpa using hid
      rcases bodyObj_struct hA harity2 hc2wf hcwf hbodyeq with
        ⟨_, hce⟩ | ⟨p1, p2, _, hcp2, _⟩ | ⟨i1, i2, hci1, hci2, hb⟩
      · rw [hcid] at hce; cases hce
      · rw [hcid] at hcp2; cases hcp2
      · have hid2 : id = i2 := by
          have h2 : HeapObj.node id = HeapObj.node i2 := by rw [← hcid]; exact hci2
          simpa using h2
        rw [hid2]
        have hi1wf : i1 < g.length := by rw [hci1] at hc2wf; exact hc2wf
        have hi2wf : i2 < g.length := by rw [hci2] at hcwf; exact hcwf
        have halign := body_align hA hdlen harity hpg
          hi1wf hi2wf hb
        have hlen12 : (nodeEntries g i1).length = (nodeEntries g i2).length :=
          List.Forall₂.length_eq halign
        obtain ⟨a, ds, hbind, hget, hlen, hents⟩ := hI3 i1 (by
          rw [← hci1]; exact hc2done)
        have ha : a < st.heap.length := by
          rcases List.get?_eq_some.mp hget with ⟨ha, _⟩
          exact ha
        have hdig12 : digestOfN g hh penc i1 = digestOfN g hh penc i2 := by
          have h1 : digestOfN g hh penc i1 = digestObj g hh penc c2 := by
            rw [hci1]; rfl
          have h2 : digestOfN g hh penc i2 = digestObj g hh penc c := by
            rw [hci2]; rfl
          rw [h1, h2, ← hdeq]
        refine ⟨a, ds, by rw [← hdig12]; exact hbind,
          by rw [List.get?_append ha]; exact hget, by omega, ?_⟩
        intro k hk
        have hk1 : k < (nodeEntries g i1).length := by omega
        have hkalign := (List.forall₂_iff_get.mp halign).2 k hk1 hk
        constructor
        · intro p hp
          rcases hkalign with ⟨p0, hp01, hp02⟩ | ⟨j1, j2, _, hj2, _⟩
          · rw [hp] at hp02
            injection hp02 with hp02
            subst hp02
            exact (hents k hk1).1 p hp01
          · rw [hp] at hj2; cases hj2
        · intro j hj
          rcases hkalign with ⟨p0, _, hp02⟩ | ⟨j1, j2, hj1, hj2, hdig⟩
          · rw [hj] at hp02; cases hp02
          · rw [hj] at hj2
            injection hj2 with hj2
            subst hj2
            rw [(hents k hk1).2 j1 hj1, hdig]

/-! ## The putIfAbsent endgame shared by all three frame shapes -/

theorem intern_endgame {g : Graph} {hh : List Nat → List Nat}
    {penc : Nat → List Nat} {pdec : PDec}
    (hG : GoodGraph g)
    (hinj : ∀ b1 b2, hh b1 = hh b2 → b1 = b2)
    (hdlen : ∀ b, (hh b).length < 2 ^ 31)
    {root : HeapObj} (hwf : WfRoot g root)
    (hpdec : ∀ p, PayloadIn g root p → ∀ r, pdec (penc p ++ r) = some (p, r))
    {topo done todo : List HeapObj} {c : HeapObj}
    (htopoMem : ∀ x ∈ topo, ReachObj g root x)
    (hsplit : topo = done ++ c :: todo)
    {st : DState} (hinv : ReaderInv g hh penc done st)
    {result : DVal} {ext heap2 : List (List DVal)}
    (hheap2 : heap2 = st.heap ++ ext)
    (hequiv : ObjEquivP g (st.heap ++ ext) c result)
    (harr : ∀ id, c = HeapObj.node id → ∃ a ds, result = DVal.arr a ∧
      (st.heap ++ ext).get? a = some ds ∧
      ds.length = (nodeEntries g id).length ∧
      ∀ k, (hk : k < (nodeEntries g id).length) →
        (∀ p, (nodeEntries g id).get ⟨k, hk⟩ = Entry.payload p →
          ds.get? k = some (DVal.payload p)) ∧
        (∀ j, (nodeEntries g id).get ⟨k, hk⟩ = Entry.ref j →
          ∃ vj, alookup (digestOfN g hh penc j) st.interner = some vj ∧
            ds.get? k = some vj)) :
    ReaderInv g hh penc (done ++ [c])
        (internResult st (digestObj g hh penc c) result heap2).2 ∧
      InternerLe st (internResult st (digestObj g hh penc c) result heap2).2 ∧
      (∃ ext2, (internResult st (digestObj g hh penc c) result heap2).2.heap =
        st.heap ++ ext2) ∧
      alookup (digestObj g hh penc c)
          (internResult st (digestObj g hh penc c) result heap2).2.interner =
        some (internResult st (digestObj g hh penc c) result heap2).1 ∧
      ObjEquivP g (internResult st (digestObj g hh penc c) result heap2).2.heap c
        (internResult st (digestObj g hh penc c) result heap2).1 := by
  subst hheap2
  cases hlook : alookup (digestObj g hh penc c) st.interner with
  | none =>
    simp only [internResult, hlook]
    refine ⟨readerInv_insert hinv hlook hequiv harr, ?_, ⟨ext, rfl⟩, ?_, hequiv⟩
    · intro d v h
      exact alookup_insert_absent hlook h
    · rw [alookup, if_pos rfl]
  | some old =>
    simp only [internResult, hlook]
    obtain ⟨hinv2, hq⟩ := readerInv_adopt hG hinj hdlen hwf hpdec htopoMem hsplit
      hinv hlook ext
    exact ⟨hinv2, fun d v h => h, ⟨ext, rfl⟩, trivial, hq⟩

/-! ## One reader step: consuming one frame preserves the invariant -/

theorem reader_step {g : Graph} {hh : List Nat → List Nat}
    {penc : Nat → List Nat} {pdec : PDec}
    (hG : GoodGraph g)
    (hinj : ∀ b1 b2, hh b1 = hh b2 → b1 = b2)
    (hdlen : ∀ b, (hh b).length < 2 ^ 31)
    {root : HeapObj} (hwf : WfRoot g root)
    (hpdec : ∀ p, PayloadIn g root p → ∀ r, pdec (penc p ++ r) = some (p, r))
    (hrootplen : ∀ p, root = HeapObj.payload p →
      (writeVarNat 1 ++ penc p).length < 2 ^ 31)
    (hblen : ∀ id, id < g.length → (bodyOfN g hh penc id).length < 2 ^ 31)
    {topo done todo : List HeapObj} {c : HeapObj}
    (htopoMem : ∀ x ∈ topo, ReachObj g root x)
    (hord : TopoOrdered g topo)
    (hsplit : topo = done ++ c :: todo)
    {st : DState} (hinv : ReaderInv g hh penc done st)
    (rest : List Nat) :
    ∃ v st2,
      deserializeOneNestedSet pdec st
          (writeByteArray (digestObj g hh penc c) ++
            (writeByteArray (bodyObj g hh penc c) ++ rest)) =
        .ok (v, st2, rest) ∧
      ReaderInv g hh penc (done ++ [c]) st2 ∧
      InternerLe st st2 ∧
      (∃ ext2, st2.heap = st.heap ++ ext2) ∧
      alookup (digestObj g hh penc c) st2.interner = some v ∧
      ObjEquivP g st2.heap c v := by
  have hA : Acyclic g := hG.2.1
  have hcmem : c ∈ topo := by rw [hsplit]; simp
  have hcwf : WfRoot g c := reachObj_wf hA hwf (htopoMem c hcmem)
  obtain ⟨hI1, hI2, hI3⟩ := hinv
  have hinv : ReaderInv g hh penc done st := ⟨hI1, hI2, hI3⟩
  cases c with
  | empty =>
    rw [deserializeOne_frame pdec st (digestObj g hh penc HeapObj.empty)
      (bodyObj g hh penc HeapObj.empty) rest (hdlen _) (by
      have he : bodyObj g hh penc HeapObj.empty = [0] := rfl
      rw [he]
      norm_num)]
    have hread : readInt32 (bodyObj g hh penc HeapObj.empty) =
        some (((0 : Nat) : Int), []) := by
      have h0 : readInt32 (writeVarNat 0 ++ []) = some (((0 : Nat) : Int), []) :=
        readInt32_writeVarNat (by norm_num) []
      rw [List.append_nil] at h0
      exact h0
    rw [hread]
    dsimp only
    have hbc : buildChildValue pdec st ((0 : Nat) : Int) [] =
        .ok (DVal.empty, st.heap) := by
      rw [buildChildValue, if_neg (by norm_num), if_neg (by norm_num)]
    rw [hbc]
    dsimp only
    refine ⟨_, _, rfl, ?_⟩
    exact intern_endgame hG hinj hdlen hwf hpdec htopoMem hsplit hinv
      (List.append_nil st.heap).symm
      (⟨0, rfl⟩ : ObjEquivP g (st.heap ++ []) HeapObj.empty DVal.empty)
      (fun id h => nomatch h)
  | payload p =>
    have hroot : root = HeapObj.payload p :=
      reachObj_payload (htopoMem _ hcmem) rfl
    have hpp : PayloadIn g root p := Or.inr hroot
    rw [deserializeOne_frame pdec st (digestObj g hh penc (HeapObj.payload p))
      (bodyObj g hh penc (HeapObj.payload p)) rest (hdlen _) (hrootplen p hroot)]
    have hread : readInt32 (bodyObj g hh penc (HeapObj.payload p)) =
        some (((1 : Nat) : Int), penc p) := by
      have hb : bodyObj g hh penc (HeapObj.payload p) =
          writeVarNat 1 ++ penc p := rfl
      rw [hb]
      exact readInt32_writeVarNat (by norm_num) (penc p)
    rw [hread]
    dsimp only
    have hbc : buildChildValue pdec st ((1 : Nat) : Int) (penc p) =
        .ok (DVal.payload p, st.heap) := by
      rw [buildChildValue, if_neg (by norm_num), if_pos (by norm_num)]
      have hpd := hpdec p hpp []
      rw [List.append_nil] at hpd
      rw [hpd]
    rw [hbc]
    dsimp only
    refine ⟨_, _, rfl, ?_⟩
    refine intern_endgame hG hinj hdlen hwf hpdec htopoMem hsplit hinv
      (List.append_nil st.heap).symm ⟨1, ?_⟩ (fun id h => nomatch h)
    simp [objEquiv]
  | node id =>
    have hid : id < g.length := hcwf
    have hlen2 : 2 ≤ (nodeEntries g id).length := (hG.2.2 id hid).1
    have hlen31 : (nodeEntries g id).length < 2 ^ 31 := (hG.2.2 id hid).2
    have hpos : done.length < topo.length := by
      rw [hsplit]
      simp
    have hatq : topo.get? done.length = some (HeapObj.node id) := by
      rw [hsplit, List.get?_append_right (le_refl done.length)]
      simp
    have hat : topo[done.length] = HeapObj.node id := by
      have h1 : topo.get? done.length = some topo[done.length] := by
        rw [List.get?_eq_get hpos, List.get_eq_getElem]
      rw [h1] at hatq
      injection hatq
    have hrefsdone : ∀ j ∈ refsOf (nodeEntries g id), HeapObj.node j ∈ done := by
      intro j hj
      obtain ⟨k, hk, hklt, hkat⟩ := hord done.length hpos id hat j hj
      have hkd : k < done.length := by omega
      have h2 : topo.get? k = some (HeapObj.node j) := by
        rw [List.get?_eq_get hk, List.get_eq_getElem, hkat]
      rw [hsplit, List.get?_append hkd] at h2
      exact List.get?_mem h2
    have hrefs : ∀ j ∈ refsOf (nodeEntries g id),
        ∃ vj, alookup (digestOfN g hh penc j) st.interner = some vj := by
      intro j hj
      obtain ⟨vj, hvj, _⟩ := hI1 (HeapObj.node j) (hrefsdone j hj)
      exact ⟨vj, hvj⟩
    have hentsmem : nodeEntries g id ∈ g := by
      have hg := get?_nodeEntries hid
      exact List.get?_mem hg
    have hpays : ∀ p, Entry.payload p ∈ nodeEntries g id →
        ∀ r, pdec (penc p ++ r) = some (p, r) := by
      intro p hp r
      exact hpdec p (Or.inl ⟨nodeEntries g id, hentsmem, hp⟩) r
    rw [deserializeOne_frame pdec st (digestObj g hh penc (HeapObj.node id))
      (bodyObj g hh penc (HeapObj.node id)) rest (hdlen _) (hblen id hid)]
    have hbody : bodyObj g hh penc (HeapObj.node id) =
        writeVarNat (nodeEntries g id).length ++
          entsBytesWith penc (digestOfN g hh penc) (nodeEntries g id) :=
      bodyOfN_eq hA id
    have hread : readInt32 (bodyObj g hh penc (HeapObj.node id)) =
        some ((((nodeEntries g id).length : Nat) : Int),
          entsBytesWith penc (digestOfN g hh penc) (nodeEntries g id)) := by
      rw [hbody]
      exact readInt32_writeVarNat hlen31 _
    rw [hread]
    dsimp only
    have hrce : readChildEntries pdec st.interner (nodeEntries g id).length
        (entsBytesWith penc (digestOfN g hh penc) (nodeEntries g id)) =
        .ok ((nodeEntries g id).map (entryRead g hh penc st.interner), []) := by
      have h0 := readChildEntries_ents hdlen (nodeEntries g id) [] hrefs hpays
      rw [List.append_nil] at h0
      exact h0
    have hbc : buildChildValue pdec st (((nodeEntries g id).length : Nat) : Int)
        (entsBytesWith penc (digestOfN g hh penc) (nodeEntries g id)) =
        .ok (DVal.arr st.heap.length,
          st.heap ++ [(nodeEntries g id).map (entryRead g hh penc st.interner)]) := by
      rw [buildChildValue, if_pos (by exact_mod_cast hlen2)]
      rw [Int.toNat_natCast, hrce]
    rw [hbc]
    dsimp only
    refine ⟨_, _, rfl, ?_⟩
    have hvsget : ∀ k, k < (nodeEntries g id).length →
        ((nodeEntries g id).map (entryRead g hh penc st.interner)).get? k =
          ((nodeEntries g id).get? k).map (entryRead g hh penc st.interner) := by
      intro k _
      exact List.get?_map _ _ _
    have huni : ∃ F, ∀ k, k < (nodeEntries g id).length →
        ∀ e, (nodeEntries g id).get? k = some e →
          entryEquiv g
            (st.heap ++ [(nodeEntries g id).map (entryRead g hh penc st.interner)])
            F e (entryRead g hh penc st.interner e) = true := by
      refine exists_uniform
        (fun k f f2 hle hq e he => entryEquiv_mono f f2 _ _ hle (hq e he))
        (nodeEntries g id).length ?_
      intro k hk
      cases hek : (nodeEntries g id).get ⟨k, hk⟩ with
      | payload p =>
        refine ⟨1, ?_⟩
        intro e he
        have hesome : (nodeEntries g id).get? k = some (Entry.payload p) := by
          rw [List.get?_eq_get hk, hek]
        have hee : e = Entry.payload p := by
          rw [hesome] at he
          injection he with he2
          exact he2.symm
        subst hee
        rw [entryEquiv_succ]
        simp [entryRead]
      | ref j =>
        have hjr : j ∈ refsOf (nodeEntries g id) :=
          mem_refsOf (hek ▸ List.get_mem _ k hk)
        obtain ⟨vj, hvj, fj, hfj⟩ := hI1 (HeapObj.node j) (hrefsdone j hjr)
        refine ⟨fj, ?_⟩
        intro e he
        have hesome : (nodeEntries g id).get? k = some (Entry.ref j) := by
          rw [List.get?_eq_get hk, hek]
        have hee : e = Entry.ref j := by
          rw [hesome] at he
          injection he with he2
          exact he2.symm
        subst hee
        have hread2 : entryRead g hh penc st.interner (Entry.ref j) = vj := by
          rw [entryRead]
          have hdd : digestObj g hh penc (HeapObj.node j) =
              digestOfN g hh penc j := rfl
          rw [hdd] at hvj
          rw [hvj]
          rfl
        rw [hread2]
        rw [objEquiv_node] at hfj
        exact entryEquiv_heap_append fj _ _ hfj
    obtain ⟨F, hF⟩ := huni
    have hlenvs : (nodeEntries g id).length =
        ((nodeEntries g id).map (entryRead g hh penc st.interner)).length := by
      simp
    have hequiv : ObjEquivP g
        (st.heap ++ [(nodeEntries g id).map (entryRead g hh penc st.interner)])
        (HeapObj.node id) (DVal.arr st.heap.length) := by
      refine ⟨F + 1, ?_⟩
      rw [objEquiv_node, entryEquiv_succ]
      dsimp only
      rw [get?_nodeEntries hid, List.get?_concat_length]
      dsimp only
      rw [Bool.and_eq_true]
      constructor
      · simp
      · rw [all_zip_iff hlenvs]
        intro k h1 h2
        dsimp only
        have hvk : ((nodeEntries g id).map (entryRead g hh penc st.interner)).get
            ⟨k, h2⟩ = entryRead g hh penc st.interner ((nodeEntries g id).get ⟨k, h1⟩) := by
          have hm := List.get?_map (entryRead g hh penc st.interner) (nodeEntries g id) k
          rw [List.get?_eq_get h1, List.get?_eq_get h2] at hm
          injection hm
        rw [hvk]
        exact hF k h1 _ (List.get?_eq_get h1)
    have harr : ∀ id2, HeapObj.node id = HeapObj.node id2 →
        ∃ a ds, DVal.arr st.heap.length = DVal.arr a ∧
        (st.heap ++ [(nodeEntries g id).map (entryRead g hh penc st.interner)]).get?
          a = some ds ∧
        ds.length = (nodeEntries g id2).length ∧
        ∀ k, (hk : k < (nodeEntries g id2).length) →
          (∀ p, (nodeEntries g id2).get ⟨k, hk⟩ = Entry.payload p →
            ds.get? k = some (DVal.payload p)) ∧
          (∀ j, (nodeEntries g id2).get ⟨k, hk⟩ = Entry.ref j →
            ∃ vj, alookup (digestOfN g hh penc j) st.interner = some vj ∧
              ds.get? k = some vj) := by
      intro id2 heq2
      injection heq2 with h2
      subst h2
      refine ⟨st.heap.length,
        (nodeEntries g id).map (entryRead g hh penc st.interner), rfl,
        List.get?_concat_length _ _, by simp, ?_⟩
      intro k hk
      constructor
      · intro p hp
        rw [hvsget k hk, List.get?_eq_get hk, hp]
        simp [entryRead]
      · intro j hj
        have hjr : j ∈ refsOf (nodeEntries g id) :=
          mem_refsOf (hj ▸ List.get_mem _ k hk)
        obtain ⟨vj, hvj⟩ := hrefs j hjr
        refine ⟨vj, hvj, ?_⟩
        rw [hvsget k hk, List.get?_eq_get hk, hj]
        simp [entryRead, hvj]
    exact intern_endgame hG hinj hdlen hwf hpdec htopoMem hsplit hinv rfl
      hequiv harr

/-! ## The reader loop over a topologically ordered frame list -/

theorem reader_loop {g : Graph} {hh : List Nat → List Nat}
    {penc : Nat → List Nat} {pdec : PDec}
    (hG : GoodGraph g)
    (hinj : ∀ b1 b2, hh b1 = hh b2 → b1 = b2)
    (hdlen : ∀ b, (hh b).length < 2 ^ 31)
    {root : HeapObj} (hwf : WfRoot g root)
    (hpdec : ∀ p, PayloadIn g root p → ∀ r, pdec (penc p ++ r) = some (p, r))
    (hrootplen : ∀ p, root = HeapObj.payload p →
      (writeVarNat 1 ++ penc p).length < 2 ^ 31)
    (hblen : ∀ id, id < g.length → (bodyOfN g hh penc id).length < 2 ^ 31)
    {topo : List HeapObj}
    (htopoMem : ∀ x ∈ topo, ReachObj g root x)
    (hord : TopoOrdered g topo) :
    ∀ (todo done : List HeapObj) (st : DState) (rest : List Nat) (last : DVal),
      topo = done ++ todo →
      ReaderInv g hh penc done st →
      ∃ v st2,
        deserializeFrames pdec todo.length st
            (framesBytes g hh penc todo ++ rest) last = .ok (v, st2, rest) ∧
        ReaderInv g hh penc topo st2 ∧
        InternerLe st st2 ∧
        (∃ ext2, st2.heap = st.heap ++ ext2) ∧
        (todo = [] → v = last) ∧
        (∀ c, todo.getLast? = some c →
          alookup (digestObj g hh penc c) st2.interner = some v ∧
          ObjEquivP g st2.heap c v) := by
  intro todo
  induction todo with
  | nil =>
    intro done st rest last hsplit hinv
    refine ⟨last, st, ?_, ?_, internerLe_refl st,
      ⟨[], (List.append_nil _).symm⟩, fun _ => rfl, ?_⟩
    · rw [show framesBytes g hh penc [] = [] from rfl, List.nil_append,
        List.length_nil, deserializeFrames_zero]
    · rw [hsplit, List.append_nil]
      exact hinv
    · intro c hc
      cases hc
  | cons c cs ih =>
    intro done st rest last hsplit hinv
    have hframes : framesBytes g hh penc (c :: cs) ++ rest =
        writeByteArray (digestObj g hh penc c) ++
          (writeByteArray (bodyObj g hh penc c) ++
            (framesBytes g hh penc cs ++ rest)) := by
      rw [show framesBytes g hh penc (c :: cs) =
        (writeByteArray (digestObj g hh penc c) ++
          writeByteArray (bodyObj g hh penc c)) ++ framesBytes g hh penc cs
        from rfl]
      simp [List.append_assoc]
    have hsplit1 : topo = done ++ c :: cs := hsplit
    obtain ⟨v1, stA, hds1, hinvA, hle1, ⟨ext1, hext1⟩, hbind1, hq1⟩ :=
      reader_step hG hinj hdlen hwf hpdec hrootplen hblen htopoMem hord hsplit1
      hinv (framesBytes g hh penc cs ++ rest)
    have hsplit2 : topo = (done ++ [c]) ++ cs := by
      rw [hsplit]
      simp
    obtain ⟨v, st2, hds2, hinvT, hle2, ⟨ext2, hext2⟩, hnil2, hlast2⟩ :=
      ih (done ++ [c]) stA rest v1 hsplit2 hinvA
    refine ⟨v, st2, ?_, hinvT, internerLe_trans hle1 hle2,
      ⟨ext1 ++ ext2, by rw [hext2, hext1, List.append_assoc]⟩, ?_, ?_⟩
    · rw [List.length_cons, deserializeFrames_succ, hframes, hds1]
      exact hds2
    · intro h
      exact absurd h (by simp)
    · intro c2 hc2
      cases cs with
      | nil =>
        have hc2c : c2 = c := by
          rw [show ([c] : List HeapObj).getLast? = some c from rfl] at hc2
          injection hc2 with h
          exact h.symm
        subst hc2c
        have hv : v = v1 := hnil2 rfl
        subst hv
        refine ⟨hle2 _ _ hbind1, ?_⟩
        rw [hext2]
        exact objEquivP_heap_append hq1
      | cons c3 cs3 =>
        have hc2t : (c3 :: cs3).getLast? = some c2 := by
          rw [← hc2]
          rfl
        exact hlast2 c2 hc2t

/-! ## The frame count of a topological sort is bounded by the graph size -/

theorem topo_length_lt {g : Graph} {root : HeapObj} {topo : List HeapObj}
    (hA : Acyclic g) (hwf : WfRoot g root) (hnd : topo.Nodup)
    (hmem : ∀ x ∈ topo, ReachObj g root x) (hglen : g.length < 2 ^ 31) :
    topo.length < 2 ^ 31 := by
  cases root with
  | node r =>
    have hr : r < g.length := hwf
    have hj : ∀ x ∈ topo, ∃ j, x = HeapObj.node j ∧ j < g.length := by
      intro x hx
      obtain ⟨j, rfl, hreach⟩ := hmem x hx
      exact ⟨j, rfl, lt_of_le_of_lt (reaches_le hA hreach hr) hr⟩
    have hndm : (topo.map (fun x => match x with
        | HeapObj.node j => j
        | _ => 0)).Nodup := by
      refine List.Nodup.map_on ?_ hnd
      intro x hx y hy hxy
      obtain ⟨jx, rfl, _⟩ := hj x hx
      obtain ⟨jy, rfl, _⟩ := hj y hy
      dsimp only at hxy
      rw [hxy]
    have hsub : (topo.map (fun x => match x with
        | HeapObj.node j => j
        | _ => 0)).toFinset ⊆ Finset.range g.length := by
      intro n hn
      rw [List.mem_toFinset, List.mem_map] at hn
      obtain ⟨x, hx, hfx⟩ := hn
      obtain ⟨jx, rfl, hjx⟩ := hj x hx
      rw [Finset.mem_range]
      dsimp only at hfx
      omega
    have hcard := Finset.card_le_card hsub
    rw [List.toFinset_card_of_nodup hndm, Finset.card_range,
      List.length_map] at hcard
    omega
  | empty =>
    cases topo with
    | nil => norm_num
    | cons a t =>
      have ha : a = HeapObj.empty := hmem a (by simp)
      cases t with
      | nil => norm_num
      | cons b t2 =>
        have hb : b = HeapObj.empty := hmem b (by simp)
        rw [List.nodup_cons] at hnd
        exact absurd (by rw [ha, ← hb]; simp : a ∈ b :: t2) hnd.1
  | payload p =>
    cases topo with
    | nil => norm_num
    | cons a t =>
      have ha : a = HeapObj.payload p := hmem a (by simp)
      cases t with
      | nil => norm_num
      | cons b t2 =>
        have hb : b = HeapObj.payload p := hmem b (by simp)
        rw [List.nodup_cons] at hnd
        exact absurd (by rw [ha, ← hb]; simp : a ∈ b :: t2) hnd.1

theorem createNestedSet_eq (o : Order) (v : DVal) :
    createNestedSet o v = ⟨o, v⟩ := by
  rw [createNestedSet]
  by_cases h : v = DVal.empty
  · rw [if_pos h, h]
    rfl
  · rw [if_neg h]

/-! ## The full round trip: serialize, then deserialize from a fresh state -/

theorem roundtrip_main {g : Graph} {hh : List Nat → List Nat}
    {penc : Nat → List Nat} {pdec : PDec} (ns : NestedSet)
    (hG : GoodGraph g) (hwf : WfRoot g ns.children)
    (hinj : ∀ b1 b2, hh b1 = hh b2 → b1 = b2)
    (hdlen : ∀ b, (hh b).length < 2 ^ 31)
    (hpdec : ∀ p, PayloadIn g ns.children p →
      ∀ r, pdec (penc p ++ r) = some (p, r))
    (hrootplen : ∀ p, ns.children = HeapObj.payload p →
      (writeVarNat 1 ++ penc p).length < 2 ^ 31)
    (hblen : ∀ id, id < g.length → (bodyOfN g hh penc id).length < 2 ^ 31) :
    ∃ topo bytes v st2,
      serialize hh penc (g.length + 1) g ns = some (.ok bytes) ∧
      bytes = writeVarNat topo.length ++
        (writeVarNat ns.order.ordinal ++ framesBytes g hh penc topo) ∧
      topo.Nodup ∧ (∀ x, x ∈ topo ↔ ReachObj g ns.children x) ∧
      deserialize pdec ⟨[], []⟩ bytes = .ok (⟨ns.order, v⟩, st2, []) ∧
      alookup (digestObj g hh penc ns.children) st2.interner = some v ∧
      ObjEquivP g st2.heap ns.children v ∧
      ReaderInv g hh penc topo st2 := by
  have hA : Acyclic g := hG.2.1
  obtain ⟨topo, htopo, hnd, hiff, hord, ⟨t, hconcat⟩, hser⟩ :=
    serialize_ok ns hA hwf
  have htopoMem : ∀ x ∈ topo, ReachObj g ns.children x :=
    fun x hx => (hiff x).mp hx
  have hlen31 : topo.length < 2 ^ 31 :=
    topo_length_lt hA hwf hnd htopoMem hG.1
  have hlen1 : 1 ≤ topo.length := by
    rw [hconcat]
    simp
  have hinv0 : ReaderInv g hh penc [] ⟨[], []⟩ := by
    refine ⟨?_, ?_, ?_⟩
    · intro c hc
      exact absurd hc (List.not_mem_nil c)
    · intro d v hdv
      exact absurd hdv (List.not_mem_nil (d, v))
    · intro i hi
      exact absurd hi (List.not_mem_nil (HeapObj.node i))
  obtain ⟨v, st2, hds, hinvT, hle, hext, hnilv, hlastv⟩ :=
    reader_loop hG hinj hdlen hwf hpdec hrootplen hblen htopoMem hord
      topo [] (⟨[], []⟩ : DState) [] DVal.empty rfl hinv0
  rw [List.append_nil] at hds
  have hlast : topo.getLast? = some ns.children := by
    rw [hconcat]
    exact List.getLast?_concat t
  obtain ⟨hbind, hq⟩ := hlastv ns.children hlast
  refine ⟨topo, _, v, st2, hser, rfl, hnd, hiff, ?_, hbind, hq, hinvT⟩
  rw [deserialize, if_pos (show shouldSerializeNestedSet = true from rfl)]
  rw [readInt32_writeVarNat hlen31]
  dsimp only
  rw [if_neg (by
    rw [not_lt]
    exact_mod_cast hlen1)]
  rw [show deserializeOrder (writeVarNat ns.order.ordinal ++
      framesBytes g hh penc topo) =
      .ok (ns.order, framesBytes g hh penc topo) from by
    rw [deserializeOrder, readInt32_writeVarNat (order_ordinal_lt ns.order)]
    dsimp only
    rw [if_neg (by
      rw [not_lt]
      exact Int.natCast_nonneg _)]
    rw [Int.toNat_natCast, order_ofOrdinal_ordinal]]
  dsimp only
  rw [Int.toNat_natCast, hds]
  dsimp only
  rw [createNestedSet_eq]

/-! ## Injectivity of the stand-in hash used by the witnesses -/

theorem natListEncode_inj : ∀ b1 b2, natListEncode b1 = natListEncode b2 →
    b1 = b2 := by
  intro b1
  induction b1 with
  | nil =>
    intro b2 h
    cases b2 with
    | nil => rfl
    | cons y ys =>
      simp only [natListEncode] at h
      omega
  | cons x xs ih =>
    intro b2 h
    cases b2 with
    | nil =>
      simp only [natListEncode] at h
      omega
    | cons y ys =>
      simp only [natListEncode] at h
      have h2 : Nat.pair x (natListEncode xs) = Nat.pair y (natListEncode ys) := by
        omega
      rw [Nat.pair_eq_pair] at h2
      rw [h2.1, ih ys h2.2]

theorem hashPair_inj : ∀ b1 b2, hashPair b1 = hashPair b2 → b1 = b2 := by
  intro b1 b2 h
  rw [hashPair, hashPair] at h
  injection h with h1 _
  exact natListEncode_inj b1 b2 h1

theorem reaches_snoc {g : Graph} {a b j : Nat} (h : Reaches g a b)
    (hj : j ∈ refsOf (nodeEntries g b)) : Reaches g a j := by
  induction h with
  | refl i => exact Reaches.step hj (Reaches.refl j)
  | step h1 h2 ih => exact Reaches.step h1 (ih hj)

/-- C1: for a well-formed acyclic nested set over a graph of BRANCH nodes
whose payloads round-trip under the supplied payload codec, deserializing
the bytes produced by serialize from a fresh state succeeds, consumes the
bytes exactly, and yields a nested set with the same order-kind and a
children structure equivalent to the original: the same shape, the same
entry order, and equal payloads at every position (objEquiv). -/
theorem c1_round_trip {g : Graph} {hh : List Nat → List Nat}
    {penc : Nat → List Nat} {pdec : PDec} (ns : NestedSet)
    (hG : GoodGraph g) (hwf : WfRoot g ns.children)
    (hinj : ∀ b1 b2, hh b1 = hh b2 → b1 = b2)
    (hdlen : ∀ b, (hh b).length < 2 ^ 31)
    (hpdec : ∀ p, PayloadIn g ns.children p →
      ∀ r, pdec (penc p ++ r) = some (p, r))
    (hrootplen : ∀ p, ns.children = HeapObj.payload p →
      (writeVarNat 1 ++ penc p).length < 2 ^ 31)
    (hblen : ∀ id, id < g.length → (bodyOfN g hh penc id).length < 2 ^ 31) :
    ∃ bytes ns2 st2,
      serialize hh penc (g.length + 1) g ns = some (.ok bytes) ∧
      deserialize pdec ⟨[], []⟩ bytes = .ok (ns2, st2, []) ∧
      ns2.order = ns.order ∧
      ∃ f, objEquiv g st2.heap f ns.children ns2.children = true := by
  obtain ⟨topo, bytes, v, st2, hser, hbytes, hnd, hiff, hdes, hbind, hq, hinvT⟩ :=
    roundtrip_main ns hG hwf hinj hdlen hpdec hrootplen hblen
  exact ⟨bytes, ⟨ns.order, v⟩, st2, hser, hdes, rfl, hq⟩

theorem c1_round_trip_witness :
    ∃ bytes ns2 st2,
      serialize hashPair pencV (wG.length + 1) wG
          ⟨Order.stable, HeapObj.node 1⟩ = some (.ok bytes) ∧
      deserialize pdecV ⟨[], []⟩ bytes = .ok (ns2, st2, []) ∧
      ns2.order = Order.stable ∧
      ∃ f, objEquiv wG st2.heap f (HeapObj.node 1) ns2.children = true :=
  c1_round_trip ⟨Order.stable, HeapObj.node 1⟩ (by decide) (by decide)
    hashPair_inj (fun b => by simp [hashPair])
    (by
      intro p hp r
      rcases hp with ⟨es, hes, hmem⟩ | heq
      · have hp31 : p < 2 ^ 31 := by
          simp only [wG, List.mem_cons, List.not_mem_nil, or_false] at hes
          rcases hes with rfl | rfl
          · simp at hmem
            rcases hmem with rfl | rfl <;> norm_num
          · simp at hmem
            subst hmem
            norm_num
        exact readRawVarint_writeVarNat hp31 r
      · exact absurd heq (by simp))
    (fun p h => absurd h (by simp)) (by decide)

/-- C2: when a sub-graph S (a BRANCH node) is referenced from two positions
of the nested set, the topologically sorted frame list written by serialize
contains exactly one frame for S, and in the deserialized result both
reference positions hold one and the same value (the same interned object,
looked up under the digest of S). -/
theorem c2_sharing {g : Graph} {hh : List Nat → List Nat}
    {penc : Nat → List Nat} {pdec : PDec} (ns : NestedSet)
    (hG : GoodGraph g) (hwf : WfRoot g ns.children)
    (hinj : ∀ b1 b2, hh b1 = hh b2 → b1 = b2)
    (hdlen : ∀ b, (hh b).length < 2 ^ 31)
    (hpdec : ∀ p, PayloadIn g ns.children p →
      ∀ r, pdec (penc p ++ r) = some (p, r))
    (hrootplen : ∀ p, ns.children = HeapObj.payload p →
      (writeVarNat 1 ++ penc p).length < 2 ^ 31)
    (hblen : ∀ id, id < g.length → (bodyOfN g hh penc id).length < 2 ^ 31)
    {s id1 k1 id2 k2 : Nat}
    (hid1 : ReachObj g ns.children (HeapObj.node id1))
    (hid2 : ReachObj g ns.children (HeapObj.node id2))
    (hk1 : k1 < (nodeEntries g id1).length)
    (hk2 : k2 < (nodeEntries g id2).length)
    (he1 : (nodeEntries g id1).get ⟨k1, hk1⟩ = Entry.ref s)
    (he2 : (nodeEntries g id2).get ⟨k2, hk2⟩ = Entry.ref s)
    (hne : (id1, k1) ≠ (id2, k2)) :
    ∃ topo bytes v st2,
      serialize hh penc (g.length + 1) g ns = some (.ok bytes) ∧
      bytes = writeVarNat topo.length ++
        (writeVarNat ns.order.ordinal ++ framesBytes g hh penc topo) ∧
      topo.count (HeapObj.node s) = 1 ∧
      deserialize pdec ⟨[], []⟩ bytes = .ok (⟨ns.order, v⟩, st2, []) ∧
      ∃ a1 ds1 a2 ds2 w,
        alookup (digestOfN g hh penc id1) st2.interner = some (DVal.arr a1) ∧
        st2.heap.get? a1 = some ds1 ∧
        alookup (digestOfN g hh penc id2) st2.interner = some (DVal.arr a2) ∧
        st2.heap.get? a2 = some ds2 ∧
        ds1.get? k1 = some w ∧ ds2.get? k2 = some w := by
  obtain ⟨topo, bytes, v, st2, hser, hbytes, hnd, hiff, hdes, hbind, hq, hinvT⟩ :=
    roundtrip_main ns hG hwf hinj hdlen hpdec hrootplen hblen
  have hsmem : HeapObj.node s ∈ topo := by
    refine (hiff (HeapObj.node s)).mpr ?_
    cases hroot : ns.children with
    | empty =>
      rw [hroot] at hid1
      cases hid1
    | payload p =>
      rw [hroot] at hid1
      cases hid1
    | node r =>
      rw [hroot] at hid1
      obtain ⟨j, hj, hreach⟩ := hid1
      have hj2 : j = id1 := by
        injection hj with h
        exact h.symm
      subst hj2
      refine ⟨s, rfl, reaches_snoc hreach ?_⟩
      exact mem_refsOf (he1 ▸ List.get_mem _ k1 hk1)
  have hcount : topo.count (HeapObj.node s) = 1 :=
    List.count_eq_one_of_mem hnd hsmem
  obtain ⟨hI1, hI2, hI3⟩ := hinvT
  obtain ⟨w, hw, hwq⟩ := hI1 (HeapObj.node s) hsmem
  have hw2 : alookup (digestOfN g hh penc s) st2.interner = some w := hw
  obtain ⟨a1, ds1, hb1, hg1, hl1, hents1⟩ :=
    hI3 id1 ((hiff (HeapObj.node id1)).mpr hid1)
  obtain ⟨a2, ds2, hb2, hg2, hl2, hents2⟩ :=
    hI3 id2 ((hiff (HeapObj.node id2)).mpr hid2)
  have hv1 : ds1.get? k1 = alookup (digestOfN g hh penc s) st2.interner :=
    (hents1 k1 hk1).2 s he1
  have hv2 : ds2.get? k2 = alookup (digestOfN g hh penc s) st2.interner :=
    (hents2 k2 hk2).2 s he2
  refine ⟨topo, bytes, v, st2, hser, hbytes, hcount, hdes,
    a1, ds1, a2, ds2, w, hb1, hg1, hb2, hg2, ?_, ?_⟩
  · rw [hv1]
    exact hw2
  · rw [hv2]
    exact hw2

theorem c2_sharing_witness :
    ∃ topo bytes v st2,
      serialize hashPair pencV (wG.length + 1) wG
          ⟨Order.stable, HeapObj.node 1⟩ = some (.ok bytes) ∧
      bytes = writeVarNat topo.length ++
        (writeVarNat Order.stable.ordinal ++ framesBytes wG hashPair pencV topo) ∧
      topo.count (HeapObj.node 0) = 1 ∧
      deserialize pdecV ⟨[], []⟩ bytes = .ok (⟨Order.stable, v⟩, st2, []) ∧
      ∃ a1 ds1 a2 ds2 w,
        alookup (digestOfN wG hashPair pencV 1) st2.interner =
          some (DVal.arr a1) ∧
        st2.heap.get? a1 = some ds1 ∧
        alookup (digestOfN wG hashPair pencV 1) st2.interner =
          some (DVal.arr a2) ∧
        st2.heap.get? a2 = some ds2 ∧
        ds1.get? 0 = some w ∧ ds2.get? 1 = some w :=
  c2_sharing ⟨Order.stable, HeapObj.node 1⟩ (by decide) (by decide)
    hashPair_inj (fun b => by simp [hashPair])
    (by
      intro p hp r
      rcases hp with ⟨es, hes, hmem⟩ | heq
      · have hp31 : p < 2 ^ 31 := by
          simp only [wG, List.mem_cons, List.not_mem_nil, or_false] at hes
          rcases hes with rfl | rfl
          · simp at hmem
            rcases hmem with rfl | rfl <;> norm_num
          · simp at hmem
            subst hmem
            norm_num
        exact readRawVarint_writeVarNat hp31 r
      · exact absurd heq (by simp))
    (fun p h => absurd h (by simp)) (by decide)
    (⟨1, rfl, Reaches.refl 1⟩ : ReachObj wG (HeapObj.node 1) (HeapObj.node 1))
    (⟨1, rfl, Reaches.refl 1⟩ : ReachObj wG (HeapObj.node 1) (HeapObj.node 1))
    (by decide) (by decide) (by decide) (by decide) (by decide)

end NSC
